import Mathlib

/-!
Verification of the reconciliation engine of a local-tree / remote-sandbox
file synchronizer.  The definitions below are shallow embeddings of the
TypeScript source:

* `FileSystemItem`, `walkParents`, `pathOf` embed `src/types.ts` and
  `getFilePath` from `src/hooks/useFileSystem.ts`;
* `mergeWithSandboxFiles` embeds the merge in `src/hooks/useFileSystem.ts`;
* `syncRun` embeds `syncLocalToSandbox` from `src/hooks/useE2BSandbox.ts`;
* `listAll` and `pollTick` embed `listAllFiles` and the body of
  `checkForChanges` in `startFileWatcher` from `src/hooks/useE2BSandbox.ts`;
* `promptMatch` and `debouncePulls` embed the prompt heuristic and the
  debounce timer of the terminal component.

The source's unbounded `while` loops over parent pointers are embedded with
an explicit fuel argument; a result of `none` models a walk that has not
terminated within the given number of successful parent lookups.  Every
walk that terminates in the source does so in at most `files.length`
lookups (the visited ids would otherwise repeat and the walk would loop
forever), so `pathOf` runs the walk with fuel `files.length`.
-/

set_option maxRecDepth 8000

namespace Sendbox

inductive FileType where
  | file : FileType
  | folder : FileType
deriving DecidableEq, Repr

/-- The `FileSystemItem` interface of `src/types.ts`: `content` is present
only on files, `isOpen` only on folders (both optional in the source). -/
structure FileSystemItem where
  id : String
  parentId : Option String
  name : String
  type : FileType
  content : Option String := none
  isOpen : Option Bool := none
deriving DecidableEq, Repr

/-- `files.find(f => f.id === fid)` -/
def findItem (files : List FileSystemItem) (fid : String) : Option FileSystemItem :=
  files.find? (fun f => f.id == fid)

/-- The parent-pointer walk shared by `getFilePath` (useFileSystem.ts) and
`buildPath` (useE2BSandbox.ts): while the current parent id is neither
null nor `'root'`, look the parent up; on success prepend its name and
move up, on failure break.  One unit of fuel is consumed per successful
lookup; `none` models a walk that the source would still be running. -/
def walkParents (files : List FileSystemItem) :
    Nat → Option String → List String → Option (List String)
  | _, none, acc => some acc
  | fuel, some pid, acc =>
    if pid = "root" then some acc
    else
      match findItem files pid with
      | none => some acc
      | some parent =>
        match fuel with
        | 0 => none
        | fuel' + 1 => walkParents files fuel' parent.parentId (parent.name :: acc)

/-- `getFilePath(fileId, fileList)` from `src/hooks/useFileSystem.ts`:
returns `''` when the id is absent, otherwise
`'/home/user/' + pathParts.join('/')`. -/
def pathOf (files : List FileSystemItem) (fid : String) : Option String :=
  match findItem files fid with
  | none => some ""
  | some f =>
    (walkParents files files.length f.parentId [f.name]).map
      (fun parts => "/home/user/" ++ String.intercalate "/" parts)

/-- The root literal used inside `mergeWithSandboxFiles`:
`{ id: 'root', parentId: null, name: 'root', type: 'folder' }`. -/
def rootItem : FileSystemItem :=
  { id := "root", parentId := none, name := "root", type := FileType.folder }

/-- JS `Map.get` on an association list built by repeated `set`: the value
of the most recent `set` for the key (last occurrence wins). -/
def lookupLast (m : List (Option String × String)) (k : Option String) : Option String :=
  (m.reverse.find? (fun kv => kv.1 == k)).map (fun kv => kv.2)

/-- The `existingPaths` map of `mergeWithSandboxFiles`: every node of the
current tree contributes `(its derived path, its id)`, later entries
shadowing earlier ones with the same path. -/
def buildPathMap (prev : List FileSystemItem) : List (Option String × String) :=
  prev.map (fun f => (pathOf prev f.id, f.id))

/-- `newFiles[idx] = { ...newFiles[idx], content }` -/
def updAt : List FileSystemItem → Nat → String → List FileSystemItem
  | [], _, _ => []
  | f :: fs, 0, c => { f with content := some c } :: fs
  | f :: fs, i + 1, c => f :: updAt fs i c

/-- One iteration of the `for (const sandboxFile of sandboxFiles)` loop of
`mergeWithSandboxFiles`: unknown path ⇒ push the fresh node verbatim;
known path ⇒ when the fresh node is a file with defined content, overwrite
the content of the first node carrying the mapped id. -/
def mergeStep (pm : List (Option String × String)) (sbTree : List FileSystemItem)
    (acc : List FileSystemItem) (s : FileSystemItem) : List FileSystemItem :=
  match lookupLast pm (pathOf sbTree s.id) with
  | none => acc ++ [s]
  | some eid =>
    if eid ≠ "" ∧ s.type = FileType.file then
      match acc.findIdx? (fun f => f.id == eid), s.content with
      | some idx, some c => updAt acc idx c
      | _, _ => acc
    else acc

/-- `mergeWithSandboxFiles(sandboxFiles)` from `src/hooks/useFileSystem.ts`,
applied to the current tree `prev`.  The path map is built once from
`prev`; fresh paths are derived against `[{id:'root',...}, ...sandboxFiles]`. -/
def mergeWithSandboxFiles (prev sb : List FileSystemItem) : List FileSystemItem :=
  sb.foldl (mergeStep (buildPathMap prev) (rootItem :: sb)) prev

/-- Everything of a node except its `content`: the merge may only ever
touch `content`. -/
def shape (f : FileSystemItem) : String × Option String × String × FileType × Option Bool :=
  (f.id, f.parentId, f.name, f.type, f.isOpen)

/-- The fresh nodes of `l` that the merge loop pushes verbatim: exactly
those whose derived fresh path is absent from the `existingPaths` map. -/
def appendedP (pm : List (Option String × String)) (sbTree l : List FileSystemItem) :
    List FileSystemItem :=
  l.filter (fun s => decide (lookupLast pm (pathOf sbTree s.id) = none))

/-- The last fresh file of `l` whose path resolves through `existingPaths`
to the local id `fid` and that carries defined content: the merge loop
makes it the final writer of that local node's content. -/
def updaterP (pm : List (Option String × String)) (sbTree l : List FileSystemItem)
    (fid : String) : Option FileSystemItem :=
  (l.filter (fun s =>
    decide (lookupLast pm (pathOf sbTree s.id) = some fid ∧
      fid ≠ "" ∧ s.type = FileType.file ∧ s.content ≠ none))).getLast?

/-- One local node after the merge loop has run over `l`: its content is
overwritten by its final fresh writer when one exists. -/
def updEntry (pm : List (Option String × String)) (sbTree l : List FileSystemItem)
    (f : FileSystemItem) : FileSystemItem :=
  match updaterP pm sbTree l f.id with
  | some s =>
    match s.content with
    | some c => { f with content := some c }
    | none => f
  | none => f

/-- The local segment of the merged tree: every local node, with its
content overwritten by its final fresh writer when one exists. -/
def updatedP (pm : List (Option String × String)) (sbTree prev l : List FileSystemItem) :
    List FileSystemItem :=
  prev.map (updEntry pm sbTree l)

/-- `appendedP` specialised to a full merge. -/
def appendedFiles (prev sb : List FileSystemItem) : List FileSystemItem :=
  appendedP (buildPathMap prev) (rootItem :: sb) sb

/-- `updatedP` specialised to a full merge. -/
def updatedPrev (prev sb : List FileSystemItem) : List FileSystemItem :=
  updatedP (buildPathMap prev) (rootItem :: sb) prev sb

/-! ### `syncLocalToSandbox` (src/hooks/useE2BSandbox.ts) -/

/-- A remote filesystem call issued by `syncLocalToSandbox`. -/
inductive SandboxOp where
  | makeDir (path : String) : SandboxOp
  | writeFile (path : String) (content : String) : SandboxOp
deriving DecidableEq, Repr

/-- Outcomes of the remote calls: `makeDirOk p` / `writeOk p c` tell
whether `files.makeDir(p)` / `files.write(p, c)` resolves or rejects. -/
structure RemoteEnv where
  makeDirOk : String → Bool
  writeOk : String → String → Bool

/-- `buildPath(file, allFiles)` inside `syncLocalToSandbox`: the same
parent walk as `getFilePath`, but starting from the node itself and with a
configurable base prefix. -/
def buildPath (allFiles : List FileSystemItem) (base : String) (f : FileSystemItem) :
    Option String :=
  (walkParents allFiles allFiles.length f.parentId [f.name]).map
    (fun parts => base ++ "/" ++ String.intercalate "/" parts)

/-- The `sortedFiles` of `syncLocalToSandbox`: drop the root, then the
ES2019-stable sort under the folder-before-file comparator, which is
exactly the stable partition folders-then-files. -/
def sortedNonRoot (files : List FileSystemItem) : List FileSystemItem :=
  let nonRoot := files.filter (fun f => f.id != "root")
  nonRoot.filter (fun f => f.type == FileType.folder) ++
    nonRoot.filter (fun f => f.type != FileType.folder)

/-- The `for (const file of sortedFiles)` loop of `syncLocalToSandbox`,
threading the list of issued remote calls.  A `makeDir` is issued for every
folder and its outcome is swallowed (`try { ... } catch {}`); a `write` is
issued for every file with defined content, and a rejected `write` escapes
to the outer catch, which abandons the remaining nodes and returns
`false`.  `none` models a run on which the source's path walk diverges. -/
def syncRunAux (env : RemoteEnv) (allFiles : List FileSystemItem) (base : String) :
    List FileSystemItem → List SandboxOp → Option (Bool × List SandboxOp)
  | [], ops => some (true, ops)
  | f :: fs, ops =>
    match buildPath allFiles base f with
    | none => none
    | some p =>
      if f.type = FileType.folder then
        if env.makeDirOk p then syncRunAux env allFiles base fs (ops ++ [SandboxOp.makeDir p])
        else syncRunAux env allFiles base fs (ops ++ [SandboxOp.makeDir p])
      else
        match f.content with
        | none => syncRunAux env allFiles base fs ops
        | some c =>
          if env.writeOk p c then
            syncRunAux env allFiles base fs (ops ++ [SandboxOp.writeFile p c])
          else some (false, ops ++ [SandboxOp.writeFile p c])

/-- `syncLocalToSandbox(files, basePath)`: returns the reported success
flag together with the remote calls issued, in order. -/
def syncRun (env : RemoteEnv) (files : List FileSystemItem) (base : String) :
    Option (Bool × List SandboxOp) :=
  syncRunAux env files base (sortedNonRoot files) []

/-- The environment in which every remote call succeeds. -/
def allOkEnv : RemoteEnv := { makeDirOk := fun _ => true, writeOk := fun _ _ => true }

/-! ### `listAllFiles` and the polling watcher (src/hooks/useE2BSandbox.ts) -/

/-- One entry accumulated by `listAllFiles`: full path, directory flag and,
for files, the content when `files.read` succeeded. -/
structure RemoteEntry where
  path : String
  isDir : Bool
  content : Option String := none
deriving DecidableEq, Repr

/-- The remote namespace as seen through the capability client:
`list p` is `none` when `files.list(p)` rejects, `read p` is `none` when
`files.read(p)` rejects. -/
structure RemoteView where
  list : String → Option (List (String × Bool))
  read : String → Option String

/-- `listAllFiles(path)`: list the directory; a rejected `list` is caught
and contributes nothing; directories are recorded and recursed into; files
are recorded with their content, or without it when `read` rejects.  Fuel
bounds the recursion depth (the source would recurse forever on an
infinitely deep view). -/
def listAll (env : RemoteView) : Nat → String → List RemoteEntry
  | 0, _ => []
  | fuel + 1, path =>
    match env.list path with
    | none => []
    | some entries =>
      entries.flatMap (fun e =>
        let fullPath := if path = "/" then "/" ++ e.1 else path ++ "/" ++ e.1
        if e.2 then
          { path := fullPath, isDir := true, content := none } :: listAll env fuel fullPath
        else
          match env.read fullPath with
          | some c => [{ path := fullPath, isDir := false, content := some c }]
          | none => [{ path := fullPath, isDir := false, content := none }])

/-- The fingerprint of one listed entry:
`file.content ? file.content.length : (file.isDir ? 0 : -1)` — note that
the empty string is falsy, so an empty file fingerprints as `-1`. -/
def fingerprint (e : RemoteEntry) : Int :=
  match e.content with
  | some c => if c.length = 0 then (if e.isDir then 0 else -1) else (c.length : Int)
  | none => if e.isDir then 0 else -1

/-- JS `Map.set` on an association list with unique keys: overwrite in
place when the key exists, append otherwise. -/
def mapSet (m : List (String × Int)) (k : String) (v : Int) : List (String × Int) :=
  if m.any (fun kv => kv.1 == k) then
    m.map (fun kv => if kv.1 = k then (k, v) else kv)
  else m ++ [(k, v)]

/-- JS `Map.get`. -/
def mapGet (m : List (String × Int)) (k : String) : Option Int :=
  (m.find? (fun kv => kv.1 == k)).map (fun kv => kv.2)

inductive ChangeType where
  | created : ChangeType
  | modified : ChangeType
  | deleted : ChangeType
deriving DecidableEq, Repr

/-- The `FileChangeEvent` interface of useE2BSandbox.ts. -/
structure FileChangeEvent where
  type : ChangeType
  path : String
  isDirectory : Bool
deriving DecidableEq, Repr

/-- One iteration of the `for (const file of files)` loop of
`checkForChanges`: record the entry's fingerprint in the new map and emit
`created` when the path was unknown or `modified` when its fingerprint
changed, reading only the previous map. -/
def pollStep (prev : List (String × Int))
    (st : List FileChangeEvent × List (String × Int)) (f : RemoteEntry) :
    List FileChangeEvent × List (String × Int) :=
  let h := fingerprint f
  let cur' := mapSet st.2 f.path h
  match mapGet prev f.path with
  | none => (st.1 ++ [⟨ChangeType.created, f.path, f.isDir⟩], cur')
  | some lh => if lh ≠ h then (st.1 ++ [⟨ChangeType.modified, f.path, f.isDir⟩], cur')
               else (st.1, cur')

/-- One successful `checkForChanges` body: walk the listing building the
new fingerprint map, emitting `created` for unknown paths and `modified`
for changed fingerprints, then emit `deleted` (with `isDirectory: false`)
for every previously known path absent from the new map; the new map
replaces the stored one. -/
def pollTick (prev : List (String × Int)) (files : List RemoteEntry) :
    List FileChangeEvent × List (String × Int) :=
  let phase1 := files.foldl (pollStep prev) ([], [])
  let dels := (prev.filter (fun kv => !(phase1.2.any (fun kv' => kv'.1 == kv.1)))).map
    (fun kv => (⟨ChangeType.deleted, kv.1, false⟩ : FileChangeEvent))
  (phase1.1 ++ dels, phase1.2)

/-- The per-entry phase-1 event of `pollTick`: its decision reads only the
previous fingerprint map, never the partially built new one. -/
def phase1Event (prev : List (String × Int)) (f : RemoteEntry) : List FileChangeEvent :=
  match mapGet prev f.path with
  | none => [⟨ChangeType.created, f.path, f.isDir⟩]
  | some lh => if lh ≠ fingerprint f then [⟨ChangeType.modified, f.path, f.isDir⟩] else []

/-! ### Prompt heuristic and debounce (terminal component) -/

/-- Whether `s` ends with `c` followed only by whitespace — the JS regexes
`/\$\s*$/`, `/>\s*$/`, `/#\s*$/`, `/\]\s*$/` applied to the chunk. -/
def endsWithThenWs (c : Char) (s : String) : Bool :=
  match (s.data.reverse.dropWhile Char.isWhitespace) with
  | x :: _ => x == c
  | [] => false

/-- Whether `s` contains the unanchored pattern `~]$` anywhere. -/
def containsTildePrompt (s : String) : Bool :=
  decide ((s.splitOn "~]$").length ≥ 2)

/-- The prompt-detection heuristic applied to one decoded output chunk:
`promptPatterns.some(pattern => pattern.test(text))`. -/
def promptMatch (s : String) : Bool :=
  endsWithThenWs '$' s || endsWithThenWs '>' s || endsWithThenWs '#' s ||
    endsWithThenWs ']' s || containsTildePrompt s

/-- The single-slot debounce of `triggerSync`: given the ascending times of
the prompt matches, a pending timer is cancelled by any match arriving
strictly before it would fire; the timer set by the last match of a quiet
period fires `delay` later.  Returns the times at which the reconciliation
pull runs. -/
def debouncePulls (delay : Nat) : List Nat → List Nat
  | [] => []
  | [t] => [t + delay]
  | t₁ :: t₂ :: rest =>
    if t₂ < t₁ + delay then debouncePulls delay (t₂ :: rest)
    else (t₁ + delay) :: debouncePulls delay (t₂ :: rest)

/-- The times of the output chunks that match a prompt pattern. -/
def matchTimes (trace : List (Nat × String)) : List Nat :=
  (trace.filter (fun e => promptMatch e.2)).map (fun e => e.1)

/-- The pulls scheduled by feeding `trace` through `onOutput`:
`triggerSync` returns immediately when auto-sync is off; otherwise each
prompt match (re)starts the 1500 ms debounce timer. -/
def pullsOf (autoSync : Bool) (trace : List (Nat × String)) : List Nat :=
  if autoSync then debouncePulls 1500 (matchTimes trace) else []

/-! ### Derived notions and concrete instances used by the claims -/

/-- How many events of a given type a tick emits for a given path. -/
def eventCount (evs : List FileChangeEvent) (ty : ChangeType) (p : String) : Nat :=
  (evs.filter (fun e => e.type == ty && e.path == p)).length

/-- The observable contents of a tree: every file node paired as
(derived path, content).  This is the "set of derived paths with their
contents" under which the spec compares merge results. -/
def filePairs (l : List FileSystemItem) : List (Option String × Option String) :=
  (l.filter (fun f => f.type == FileType.file)).map (fun f => (pathOf l f.id, f.content))

/-- The local file `/home/user/readme.md` of the C1 scenario. -/
def itemL1 : FileSystemItem :=
  { id := "L1", parentId := some "root", name := "readme.md", type := FileType.file,
    content := some "old" }

/-- The fresh node of the C1 scenario: the same path under fresh id `R9`
with content `"new"`. -/
def itemR9 : FileSystemItem :=
  { id := "R9", parentId := some "root", name := "readme.md", type := FileType.file,
    content := some "new" }

/-- Local tree of the C1 end-to-end scenario: a root and an open file
`/home/user/readme.md` with local id `L1`. -/
def prevC1 : List FileSystemItem :=
  [{ rootItem with isOpen := some true }, itemL1]

/-- Fresh nodes of the C1 scenario. -/
def sbC1 : List FileSystemItem :=
  [itemR9]

/-- Local tree with a dangling parent pointer: node `n1` names a parent
`z` that does not exist locally. -/
def prevC6 : List FileSystemItem :=
  [rootItem,
   { id := "n1", parentId := some "z", name := "n.txt", type := FileType.file,
     content := some "p" }]

/-- Fresh nodes whose folder id `z` collides with the dangling parent
pointer of `prevC6`. -/
def sbC6 : List FileSystemItem :=
  [{ id := "z", parentId := some "root", name := "d", type := FileType.folder },
   { id := "s1", parentId := some "root", name := "n.txt", type := FileType.file,
     content := some "snew" }]

/-- A well-formed local tree for the idempotence instance: the root and one
file `/home/user/readme.md`. -/
def prevC6w : List FileSystemItem :=
  [{ rootItem with isOpen := some true }, itemL1]

/-- Fresh nodes for the idempotence instance: an overwrite of
`/home/user/readme.md` plus a genuinely new file `/home/user/other.ts`. -/
def sbC6w : List FileSystemItem :=
  [itemR9,
   { id := "R2", parentId := some "root", name := "other.ts", type := FileType.file,
     content := some "x" }]

/-- Depth measure on the idempotence instance: root at depth 0, its
children at depth 1. -/
def depthC6w (i : String) : Nat :=
  if i = "root" then 0 else 1

/-- The C2 end-to-end tree: folder `src` at the root and file
`src/index.ts` with content `"a"`. -/
def filesC2 : List FileSystemItem :=
  [{ rootItem with isOpen := some true },
   { id := "f1", parentId := some "root", name := "src", type := FileType.folder,
     isOpen := some true },
   { id := "f2", parentId := some "f1", name := "index.ts", type := FileType.file,
     content := some "a" }]

/-- Two files at the root, used to probe batch behaviour on a failed
write. -/
def filesC3 : List FileSystemItem :=
  [{ rootItem with isOpen := some true },
   { id := "a", parentId := some "root", name := "a.txt", type := FileType.file,
     content := some "1" },
   { id := "b", parentId := some "root", name := "b.txt", type := FileType.file,
     content := some "2" }]

/-- Environment in which exactly the write of `/home/user/a.txt`
rejects. -/
def failAEnv : RemoteEnv :=
  { makeDirOk := fun _ => true, writeOk := fun p _ => p != "/home/user/a.txt" }

/-- Remote view whose every `list` call rejects. -/
def failListEnv : RemoteView := { list := fun _ => none, read := fun _ => none }

/-- A two-node parent-pointer cycle: `a`'s parent is `b`, `b`'s parent is
`a`. -/
def cycFiles : List FileSystemItem :=
  [{ id := "a", parentId := some "b", name := "a.txt", type := FileType.file,
     content := some "x" },
   { id := "b", parentId := some "a", name := "b", type := FileType.folder }]

/-- A concrete depth measure witnessing that `filesC2` is acyclic. -/
def depthC2 : String → Nat :=
  fun s => if s = "f1" then 1 else if s = "f2" then 2 else 0

/-- Whether a previously known path is absent from the new fingerprint
map built from `files` — the (negated) condition of the deleted-events
loop of `checkForChanges`. -/
def watchAbsent (files : List RemoteEntry) (kv : String × Int) : Bool :=
  !((files.foldl (fun m f => mapSet m f.path (fingerprint f)) []).any
    (fun kv' => kv'.1 == kv.1))

/-- Whether an issued call is a `makeDir`. -/
def isMakeDirOp : SandboxOp → Bool
  | SandboxOp.makeDir _ => true
  | SandboxOp.writeFile _ _ => false

/-- Whether an issued call is a `writeFile`. -/
def isWriteOp : SandboxOp → Bool
  | SandboxOp.makeDir _ => false
  | SandboxOp.writeFile _ _ => true

end Sendbox

namespace Sendbox

/-- The merge never removes a pre-existing node and never modifies any of
its fields other than `content`: shapes of the original tree survive
positionally, with fresh nodes only appended after them. -/
theorem updAt_map_shape (l : List FileSystemItem) (i : Nat) (c : String) :
    (updAt l i c).map shape = l.map shape := by
  induction l generalizing i with
  | nil => rfl
  | cons f fs ih =>
    cases i with
    | zero => simp [updAt, shape]
    | succ j => simp [updAt, ih]

theorem mergeStep_map_shape (pm : List (Option String × String))
    (sbTree : List FileSystemItem) (acc : List FileSystemItem) (s : FileSystemItem) :
    ∃ t, (mergeStep pm sbTree acc s).map shape = acc.map shape ++ t := by
  unfold mergeStep
  cases lookupLast pm (pathOf sbTree s.id) with
  | none => exact ⟨[shape s], by simp⟩
  | some eid =>
    by_cases h : eid ≠ "" ∧ s.type = FileType.file
    · simp only [if_pos h]
      cases hidx : acc.findIdx? (fun f => f.id == eid) with
      | none => exact ⟨[], by simp⟩
      | some idx =>
        cases hc : s.content with
        | none => exact ⟨[], by simp⟩
        | some c => exact ⟨[], by simp [updAt_map_shape]⟩
    · simp only [if_neg h]
      exact ⟨[], by simp⟩

theorem merge_foldl_map_shape (pm : List (Option String × String))
    (sbTree : List FileSystemItem) :
    ∀ (sb acc : List FileSystemItem),
      ∃ t, (sb.foldl (mergeStep pm sbTree) acc).map shape = acc.map shape ++ t := by
  intro sb
  induction sb with
  | nil => exact fun acc => ⟨[], by simp⟩
  | cons s rest ih =>
    intro acc
    obtain ⟨t₁, h₁⟩ := mergeStep_map_shape pm sbTree acc s
    obtain ⟨t₂, h₂⟩ := ih (mergeStep pm sbTree acc s)
    exact ⟨t₁ ++ t₂, by simp [List.foldl_cons, h₂, h₁]⟩

/-- C9: `mergeWithSandboxFiles` never removes a local node and never
modifies any field of a pre-existing node other than `content`: the
shapes (id, parentId, name, type, isOpen) of the original tree are a
positional prefix of the shapes of the merged tree. -/
theorem merge_preserves_local_shapes (prev sb : List FileSystemItem) :
    ∃ t, (mergeWithSandboxFiles prev sb).map shape = prev.map shape ++ t :=
  merge_foldl_map_shape (buildPathMap prev) (rootItem :: sb) sb prev

/-! ### C7: prompt-detection debounce -/

/-- C7: the debounce schedules exactly one pull per quiet period: a single
chunk matching a prompt pattern yields exactly one pull 1500 ms later, and
two matches within the window yield exactly one pull timed from the second
match; the concrete chunk `"done\n$ "` matches and behaves accordingly. -/
theorem debounce_single_pull :
    (∀ t s, promptMatch s = true → pullsOf true [(t, s)] = [t + 1500]) ∧
    (∀ t₁ t₂ : Nat, t₂ < t₁ + 1500 →
      pullsOf true [(t₁, "$ "), (t₂, "$ ")] = [t₂ + 1500]) ∧
    pullsOf true [(0, "done\n$ ")] = [1500] := by
  refine ⟨fun t s hs => ?_, fun t₁ t₂ h => ?_, by decide⟩
  · have hmt : matchTimes [(t, s)] = [t] := by
      simp only [matchTimes, List.filter_cons, List.filter_nil, hs]
      simp
    simp [pullsOf, hmt, debouncePulls]
  · have hm : promptMatch "$ " = true := by decide
    have hmt : matchTimes [(t₁, "$ "), (t₂, "$ ")] = [t₁, t₂] := by
      simp only [matchTimes, List.filter_cons, List.filter_nil, hm]
      simp
    simp [pullsOf, hmt, debouncePulls, if_pos h]

/-- Witness for `debounce_single_pull` at the spec's concrete inputs. -/
theorem debounce_single_pull_witness :
    (promptMatch "done\n$ " = true ∧ pullsOf true [(0, "done\n$ ")] = [0 + 1500]) ∧
    (700 < 0 + 1500 ∧ pullsOf true [(0, "$ "), (700, "$ ")] = [700 + 1500]) :=
  ⟨⟨by decide, debounce_single_pull.1 0 "done\n$ " (by decide)⟩,
   ⟨by decide, debounce_single_pull.2.1 0 700 (by decide)⟩⟩

/-! ### C8: termination of the parent walk -/

theorem walkParents_cycFiles_none :
    ∀ fuel acc, walkParents cycFiles fuel (some "a") acc = none ∧
      walkParents cycFiles fuel (some "b") acc = none := by
  intro fuel
  induction fuel with
  | zero => intro acc; exact ⟨rfl, rfl⟩
  | succ n ih =>
    intro acc
    constructor
    · show walkParents cycFiles (n + 1) (some "a") acc = none
      have h : walkParents cycFiles (n + 1) (some "a") acc
          = walkParents cycFiles n (some "b") ("a.txt" :: acc) := rfl
      rw [h]; exact (ih _).2
    · show walkParents cycFiles (n + 1) (some "b") acc = none
      have h : walkParents cycFiles (n + 1) (some "b") acc
          = walkParents cycFiles n (some "a") ("b" :: acc) := rfl
      rw [h]; exact (ih _).1

/-- C8 counterexample: on a two-node parent cycle the source's walk never
terminates — the embedded walk is still running after `cycFiles.length`
lookups (the bound no genuinely terminating walk can exceed) and indeed
after a million lookups; no visited-set detection and no `StructuralError`
exist in the code. -/
theorem getFilePath_cycle_diverges :
    pathOf cycFiles "a" = none ∧
    walkParents cycFiles 1000000 (some "b") ["a.txt"] = none := by
  exact ⟨by decide, (walkParents_cycFiles_none 1000000 ["a.txt"]).2⟩

theorem walkParents_terminates (files : List FileSystemItem) (d : String → Nat)
    (hd : ∀ P ∈ files, ∀ q ∈ P.parentId, d q < d P.id) :
    ∀ fuel pid acc, (∀ P ∈ files, P.id = pid → d P.id < fuel) →
      (walkParents files fuel (some pid) acc).isSome := by
  intro fuel
  induction fuel with
  | zero =>
    intro pid acc h
    by_cases hr : pid = "root"
    · simp [walkParents, hr]
    · cases hf : findItem files pid with
      | none => simp [walkParents, hr, hf]
      | some P =>
        have hmem := List.mem_of_find?_eq_some hf
        have hid : P.id = pid := by
          have := List.find?_some hf
          simpa using this
        exact absurd (h P hmem hid) (by omega)
  | succ n ih =>
    intro pid acc h
    by_cases hr : pid = "root"
    · simp [walkParents, hr]
    · cases hf : findItem files pid with
      | none => simp [walkParents, hr, hf]
      | some P =>
        have hmem := List.mem_of_find?_eq_some hf
        have hid : P.id = pid := by
          have := List.find?_some hf
          simpa using this
        have hstep : walkParents files (n + 1) (some pid) acc
            = walkParents files n P.parentId (P.name :: acc) := by
          simp [walkParents, hr, hf]
        rw [hstep]
        cases hp : P.parentId with
        | none => simp [walkParents]
        | some q =>
          apply ih q
          intro Q hQ hQid
          have hdq : d q < d P.id := hd P hmem q (by simp [hp])
          have hQq : d Q.id = d q := by rw [hQid]
          have := h P hmem hid
          omega

/-- C8 amended: whenever the tree admits a depth measure strictly
decreasing along parent pointers and bounded by the node count (which the
acyclicity invariant provides), `getFilePath` terminates for every id; the
source contains no visited-set and no `StructuralError`, and on a
parent-pointer cycle the walk runs forever (see the counterexample). -/
theorem getFilePath_terminates (files : List FileSystemItem) (d : String → Nat)
    (hd : ∀ P ∈ files, ∀ q ∈ P.parentId, d q < d P.id)
    (hb : ∀ P ∈ files, d P.id < files.length) :
    ∀ fid, (pathOf files fid).isSome := by
  intro fid
  unfold pathOf
  cases hf : findItem files fid with
  | none => simp
  | some f =>
    show (Option.map (fun parts => "/home/user/" ++ String.intercalate "/" parts)
      (walkParents files files.length f.parentId [f.name])).isSome = true
    cases hp : f.parentId with
    | none => simp [walkParents]
    | some q =>
      have hw := walkParents_terminates files d hd files.length q [f.name]
        (fun P hP _ => hb P hP)
      cases hw' : walkParents files files.length (some q) [f.name] with
      | none => rw [hw'] at hw; simp at hw
      | some r => simp [hw']

/-- Witness for `getFilePath_terminates` on the concrete C2 tree with its
explicit depth measure. -/
theorem getFilePath_terminates_witness :
    (∀ P ∈ filesC2, ∀ q ∈ P.parentId, depthC2 q < depthC2 P.id) ∧
    (∀ P ∈ filesC2, depthC2 P.id < filesC2.length) ∧
    (pathOf filesC2 "f2").isSome :=
  ⟨by decide, by decide,
   getFilePath_terminates filesC2 depthC2 (by decide) (by decide) "f2"⟩

/-! ### Poller structure lemmas -/

theorem pollStep_fst (prev : List (String × Int))
    (st : List FileChangeEvent × List (String × Int)) (f : RemoteEntry) :
    (pollStep prev st f).1 = st.1 ++ phase1Event prev f := by
  unfold pollStep phase1Event
  cases mapGet prev f.path with
  | none => rfl
  | some lh =>
    by_cases h : lh ≠ fingerprint f
    · simp [h]
    · simp [h]

theorem pollStep_snd (prev : List (String × Int))
    (st : List FileChangeEvent × List (String × Int)) (f : RemoteEntry) :
    (pollStep prev st f).2 = mapSet st.2 f.path (fingerprint f) := by
  unfold pollStep
  cases mapGet prev f.path with
  | none => rfl
  | some lh =>
    by_cases h : lh ≠ fingerprint f
    · simp [h]
    · simp [h]

theorem pollFold_fst (prev : List (String × Int)) :
    ∀ (files : List RemoteEntry) (st : List FileChangeEvent × List (String × Int)),
      (files.foldl (pollStep prev) st).1 = st.1 ++ files.flatMap (phase1Event prev) := by
  intro files
  induction files with
  | nil => intro st; simp
  | cons f rest ih =>
    intro st
    rw [List.foldl_cons, ih, pollStep_fst]
    simp

theorem pollFold_snd (prev : List (String × Int)) :
    ∀ (files : List RemoteEntry) (cur : List (String × Int))
      (evs : List FileChangeEvent),
      (files.foldl (pollStep prev) (evs, cur)).2
        = files.foldl (fun m f => mapSet m f.path (fingerprint f)) cur := by
  intro files
  induction files with
  | nil => intro cur evs; rfl
  | cons f rest ih =>
    intro cur evs
    rw [List.foldl_cons, List.foldl_cons]
    have h : pollStep prev (evs, cur) f
        = ((pollStep prev (evs, cur) f).1, mapSet cur f.path (fingerprint f)) := by
      rw [Prod.ext_iff]
      exact ⟨rfl, pollStep_snd prev (evs, cur) f⟩
    rw [h, ih]

theorem phase1Event_path (prev : List (String × Int)) (f : RemoteEntry) :
    ∀ e ∈ phase1Event prev f, e.path = f.path := by
  intro e he
  unfold phase1Event at he
  cases hg : mapGet prev f.path with
  | none => rw [hg] at he; simp at he; rw [he]
  | some lh =>
    rw [hg] at he
    by_cases h : lh ≠ fingerprint f
    · simp [h] at he; rw [he]
    · simp [h] at he

theorem phase1Event_type (prev : List (String × Int)) (f : RemoteEntry) :
    ∀ e ∈ phase1Event prev f,
      e.type = ChangeType.created ∨ e.type = ChangeType.modified := by
  intro e he
  unfold phase1Event at he
  cases hg : mapGet prev f.path with
  | none => rw [hg] at he; simp at he; rw [he]; exact Or.inl rfl
  | some lh =>
    rw [hg] at he
    by_cases h : lh ≠ fingerprint f
    · simp [h] at he; rw [he]; exact Or.inr rfl
    · simp [h] at he

/-- C10: every `deleted` event of a poller tick carries
`isDirectory = false`, even when the vanished path was recorded as a
directory in the previous fingerprint map. -/
theorem deleted_events_not_directory (prev : List (String × Int))
    (files : List RemoteEntry) :
    ∀ e ∈ (pollTick prev files).1, e.type = ChangeType.deleted →
      e.isDirectory = false := by
  intro e he hty
  unfold pollTick at he
  simp only [List.mem_append] at he
  rcases he with he | he
  · rw [pollFold_fst] at he
    simp only [List.nil_append, List.mem_flatMap] at he
    obtain ⟨f, _, hef⟩ := he
    rcases phase1Event_type prev f e hef with h | h <;> rw [hty] at h <;> cases h
  · simp only [List.mem_map] at he
    obtain ⟨kv, _, hkv⟩ := he
    rw [← hkv]

/-- Witness for `deleted_events_not_directory`: the previous map knew the
directory `/d` (fingerprint 0), the new listing is empty, and the emitted
deleted event reports `isDirectory = false`. -/
theorem deleted_events_not_directory_witness :
    (⟨ChangeType.deleted, "/d", false⟩ : FileChangeEvent) ∈ (pollTick [("/d", 0)] []).1 ∧
    (⟨ChangeType.deleted, "/d", false⟩ : FileChangeEvent).isDirectory = false :=
  ⟨by decide,
   deleted_events_not_directory [("/d", 0)] [] ⟨ChangeType.deleted, "/d", false⟩
     (by decide) rfl⟩

/-! ### C2/C3: push batch structure and error semantics -/

theorem syncRunAux_cons_none (env : RemoteEnv) (allFiles : List FileSystemItem)
    (base : String) (f : FileSystemItem) (l : List FileSystemItem)
    (ops : List SandboxOp) (h : buildPath allFiles base f = none) :
    syncRunAux env allFiles base (f :: l) ops = none := by
  simp only [syncRunAux, h]

theorem syncRunAux_cons_folder (env : RemoteEnv) (allFiles : List FileSystemItem)
    (base : String) (f : FileSystemItem) (l : List FileSystemItem)
    (ops : List SandboxOp) (p : String) (h : buildPath allFiles base f = some p)
    (hf : f.type = FileType.folder) :
    syncRunAux env allFiles base (f :: l) ops
      = syncRunAux env allFiles base l (ops ++ [SandboxOp.makeDir p]) := by
  simp only [syncRunAux, h, if_pos hf, ite_self]

theorem syncRunAux_cons_skip (env : RemoteEnv) (allFiles : List FileSystemItem)
    (base : String) (f : FileSystemItem) (l : List FileSystemItem)
    (ops : List SandboxOp) (p : String) (h : buildPath allFiles base f = some p)
    (hf : f.type ≠ FileType.folder) (hc : f.content = none) :
    syncRunAux env allFiles base (f :: l) ops = syncRunAux env allFiles base l ops := by
  simp only [syncRunAux, h, if_neg hf, hc]

theorem syncRunAux_cons_write_ok (env : RemoteEnv) (allFiles : List FileSystemItem)
    (base : String) (f : FileSystemItem) (l : List FileSystemItem)
    (ops : List SandboxOp) (p : String) (c : String)
    (h : buildPath allFiles base f = some p) (hf : f.type ≠ FileType.folder)
    (hc : f.content = some c) (hw : env.writeOk p c = true) :
    syncRunAux env allFiles base (f :: l) ops
      = syncRunAux env allFiles base l (ops ++ [SandboxOp.writeFile p c]) := by
  simp only [syncRunAux, h, if_neg hf, hc, if_pos hw]

theorem syncRunAux_cons_write_fail (env : RemoteEnv) (allFiles : List FileSystemItem)
    (base : String) (f : FileSystemItem) (l : List FileSystemItem)
    (ops : List SandboxOp) (p : String) (c : String)
    (h : buildPath allFiles base f = some p) (hf : f.type ≠ FileType.folder)
    (hc : f.content = some c) (hw : env.writeOk p c = false) :
    syncRunAux env allFiles base (f :: l) ops
      = some (false, ops ++ [SandboxOp.writeFile p c]) := by
  simp only [syncRunAux, h, if_neg hf, hc, hw]
  simp

theorem syncRunAux_folder_phase (env : RemoteEnv) (allFiles : List FileSystemItem)
    (base : String) :
    ∀ (l rest : List FileSystemItem) (ops : List SandboxOp),
      (∀ f ∈ l, f.type = FileType.folder) →
      syncRunAux env allFiles base (l ++ rest) ops = none ∨
      ∃ ds, (∀ o ∈ ds, isMakeDirOp o = true) ∧
        syncRunAux env allFiles base (l ++ rest) ops
          = syncRunAux env allFiles base rest (ops ++ ds) := by
  intro l
  induction l with
  | nil => intro rest ops _; exact Or.inr ⟨[], by simp, by simp⟩
  | cons f l' ih =>
    intro rest ops hl
    have hf : f.type = FileType.folder := hl f (List.mem_cons_self f l')
    cases hbp : buildPath allFiles base f with
    | none => exact Or.inl (syncRunAux_cons_none env allFiles base f (l' ++ rest) ops hbp)
    | some p =>
      rw [List.cons_append,
        syncRunAux_cons_folder env allFiles base f (l' ++ rest) ops p hbp hf]
      rcases ih rest (ops ++ [SandboxOp.makeDir p])
          (fun g hg => hl g (List.mem_cons_of_mem f hg)) with h | ⟨ds, hds, heq⟩
      · exact Or.inl h
      · refine Or.inr ⟨SandboxOp.makeDir p :: ds, ?_, ?_⟩
        · intro o ho
          rcases List.mem_cons.mp ho with rfl | ho
          · rfl
          · exact hds o ho
        · rw [heq]; simp
  
theorem syncRunAux_file_phase (env : RemoteEnv) (allFiles : List FileSystemItem)
    (base : String) :
    ∀ (l : List FileSystemItem) (ops : List SandboxOp),
      (∀ f ∈ l, f.type ≠ FileType.folder) →
      syncRunAux env allFiles base l ops = none ∨
      ∃ b ws, (∀ o ∈ ws, isWriteOp o = true) ∧
        syncRunAux env allFiles base l ops = some (b, ops ++ ws) := by
  intro l
  induction l with
  | nil => intro ops _; exact Or.inr ⟨true, [], by simp, by simp [syncRunAux]⟩
  | cons f l' ih =>
    intro ops hl
    have hf : f.type ≠ FileType.folder := hl f (List.mem_cons_self f l')
    have htail : ∀ g ∈ l', g.type ≠ FileType.folder :=
      fun g hg => hl g (List.mem_cons_of_mem f hg)
    cases hbp : buildPath allFiles base f with
    | none => exact Or.inl (syncRunAux_cons_none env allFiles base f l' ops hbp)
    | some p =>
      cases hc : f.content with
      | none =>
        rw [syncRunAux_cons_skip env allFiles base f l' ops p hbp hf hc]
        exact ih ops htail
      | some c =>
        by_cases hw : env.writeOk p c
        · rw [syncRunAux_cons_write_ok env allFiles base f l' ops p c hbp hf hc hw]
          rcases ih (ops ++ [SandboxOp.writeFile p c]) htail with h | ⟨b, ws, hws, heq⟩
          · exact Or.inl h
          · refine Or.inr ⟨b, SandboxOp.writeFile p c :: ws, ?_, ?_⟩
            · intro o ho
              rcases List.mem_cons.mp ho with rfl | ho
              · rfl
              · exact hws o ho
            · rw [heq]; simp
        · rw [syncRunAux_cons_write_fail env allFiles base f l' ops p c hbp hf hc
            (by simpa using hw)]
          exact Or.inr ⟨false, [SandboxOp.writeFile p c], by simp [isWriteOp], by simp⟩

/-- C2: the push batch processes every folder before any file — under any
remote environment the issued calls are a block of `makeDir`s followed by
a block of `writeFile`s — and on the concrete scenario (folder `src`,
file `src/index.ts` with content `"a"`) it issues exactly
`makeDir("/home/user/src")` then `writeFile("/home/user/src/index.ts", "a")`. -/
theorem push_folders_before_files :
    (∀ (env : RemoteEnv) (files : List FileSystemItem) (base : String)
       (r : Bool × List SandboxOp), syncRun env files base = some r →
       ∃ ds ws, r.2 = ds ++ ws ∧ (∀ o ∈ ds, isMakeDirOp o = true) ∧
         (∀ o ∈ ws, isWriteOp o = true)) ∧
    syncRun allOkEnv filesC2 "/home/user"
      = some (true, [SandboxOp.makeDir "/home/user/src",
                     SandboxOp.writeFile "/home/user/src/index.ts" "a"]) := by
  constructor
  · intro env files base r hr
    unfold syncRun sortedNonRoot at hr
    set nonRoot := files.filter (fun f => f.id != "root") with hnr
    have hfold : ∀ f ∈ nonRoot.filter (fun f => f.type == FileType.folder),
        f.type = FileType.folder := by
      intro f hf
      have := List.of_mem_filter hf
      simpa using this
    have hfile : ∀ f ∈ nonRoot.filter (fun f => f.type != FileType.folder),
        f.type ≠ FileType.folder := by
      intro f hf
      have := List.of_mem_filter hf
      simpa using this
    rcases syncRunAux_folder_phase env files base
        (nonRoot.filter (fun f => f.type == FileType.folder))
        (nonRoot.filter (fun f => f.type != FileType.folder)) [] hfold with
      h | ⟨ds, hds, heq⟩
    · rw [h] at hr; cases hr
    · rw [heq] at hr
      rcases syncRunAux_file_phase env files base
          (nonRoot.filter (fun f => f.type != FileType.folder)) ([] ++ ds) hfile with
        h | ⟨b, ws, hws, heq'⟩
      · rw [h] at hr; cases hr
      · rw [heq'] at hr
        have hrr : r = (b, ([] ++ ds) ++ ws) := by
          injection hr with h'; exact h'.symm
        refine ⟨ds, ws, ?_, hds, hws⟩
        rw [hrr]; simp
  · decide

/-- Witness for `push_folders_before_files` at the concrete scenario. -/
theorem push_folders_before_files_witness :
    ∃ ds ws,
      ((true, [SandboxOp.makeDir "/home/user/src",
               SandboxOp.writeFile "/home/user/src/index.ts" "a"]) :
        Bool × List SandboxOp).2 = ds ++ ws ∧
      (∀ o ∈ ds, isMakeDirOp o = true) ∧ (∀ o ∈ ws, isWriteOp o = true) :=
  push_folders_before_files.1 allOkEnv filesC2 "/home/user" _
    push_folders_before_files.2

/-- C3 counterexample: with the write of `/home/user/a.txt` rejecting, the
batch stops at that node — the file `b.txt` is a further non-root file
node of the batch, yet no call for it is ever issued, refuting "still
attempts every node in the batch even after one node's write fails". -/
theorem push_abort_counterexample :
    syncRun failAEnv filesC3 "/home/user"
      = some (false, [SandboxOp.writeFile "/home/user/a.txt" "1"]) ∧
    ({ id := "b", parentId := some "root", name := "b.txt", type := FileType.file,
       content := some "2", isOpen := none } : FileSystemItem) ∈ sortedNonRoot filesC3 ∧
    SandboxOp.writeFile "/home/user/b.txt" "2"
      ∉ [SandboxOp.writeFile "/home/user/a.txt" "1"] :=
  ⟨by decide, by decide, by decide⟩

theorem syncRunAux_mkdir_irrelevant (mk₁ mk₂ : String → Bool)
    (wr : String → String → Bool) (allFiles : List FileSystemItem) (base : String) :
    ∀ (l : List FileSystemItem) (ops : List SandboxOp),
      syncRunAux ⟨mk₁, wr⟩ allFiles base l ops
        = syncRunAux ⟨mk₂, wr⟩ allFiles base l ops := by
  intro l
  induction l with
  | nil => intro ops; rfl
  | cons f l' ih =>
    intro ops
    cases hbp : buildPath allFiles base f with
    | none =>
      rw [syncRunAux_cons_none ⟨mk₁, wr⟩ allFiles base f l' ops hbp,
        syncRunAux_cons_none ⟨mk₂, wr⟩ allFiles base f l' ops hbp]
    | some p =>
      by_cases hf : f.type = FileType.folder
      · rw [syncRunAux_cons_folder ⟨mk₁, wr⟩ allFiles base f l' ops p hbp hf,
          syncRunAux_cons_folder ⟨mk₂, wr⟩ allFiles base f l' ops p hbp hf, ih]
      · cases hc : f.content with
        | none =>
          rw [syncRunAux_cons_skip ⟨mk₁, wr⟩ allFiles base f l' ops p hbp hf hc,
            syncRunAux_cons_skip ⟨mk₂, wr⟩ allFiles base f l' ops p hbp hf hc, ih]
        | some c =>
          by_cases hw : wr p c
          · rw [syncRunAux_cons_write_ok ⟨mk₁, wr⟩ allFiles base f l' ops p c hbp hf hc hw,
              syncRunAux_cons_write_ok ⟨mk₂, wr⟩ allFiles base f l' ops p c hbp hf hc hw, ih]
          · rw [syncRunAux_cons_write_fail ⟨mk₁, wr⟩ allFiles base f l' ops p c hbp hf hc
              (by simpa using hw),
              syncRunAux_cons_write_fail ⟨mk₂, wr⟩ allFiles base f l' ops p c hbp hf hc
              (by simpa using hw)]

theorem syncRunAux_success_iff (env : RemoteEnv) (allFiles : List FileSystemItem)
    (base : String) :
    ∀ (l : List FileSystemItem) (ops : List SandboxOp) (b : Bool)
      (ops' : List SandboxOp),
      syncRunAux env allFiles base l ops = some (b, ops') →
      (b = true ↔ ∀ f ∈ l, f.type ≠ FileType.folder → ∀ c, f.content = some c →
        ∀ p, buildPath allFiles base f = some p → env.writeOk p c = true) := by
  intro l
  induction l with
  | nil =>
    intro ops b ops' h
    have hb : b = true := by
      have h' : (some (true, ops) : Option (Bool × List SandboxOp)) = some (b, ops') := h
      injection h' with h''
      exact (congrArg Prod.fst h'').symm
    simp [hb]
  | cons f l' ih =>
    intro ops b ops' h
    cases hbp : buildPath allFiles base f with
    | none => rw [syncRunAux_cons_none env allFiles base f l' ops hbp] at h; cases h
    | some p =>
      by_cases hf : f.type = FileType.folder
      · rw [syncRunAux_cons_folder env allFiles base f l' ops p hbp hf] at h
        rw [ih _ _ _ h]
        constructor
        · intro hall g hg hgty c hgc q hq
          rcases List.mem_cons.mp hg with rfl | hg
          · exact absurd hf hgty
          · exact hall g hg hgty c hgc q hq
        · intro hall g hg hgty c hgc q hq
          exact hall g (List.mem_cons_of_mem f hg) hgty c hgc q hq
      · cases hc : f.content with
        | none =>
          rw [syncRunAux_cons_skip env allFiles base f l' ops p hbp hf hc] at h
          rw [ih _ _ _ h]
          constructor
          · intro hall g hg hgty c hgc q hq
            rcases List.mem_cons.mp hg with rfl | hg
            · rw [hc] at hgc; cases hgc
            · exact hall g hg hgty c hgc q hq
          · intro hall g hg hgty c hgc q hq
            exact hall g (List.mem_cons_of_mem f hg) hgty c hgc q hq
        | some c =>
          by_cases hw : env.writeOk p c
          · rw [syncRunAux_cons_write_ok env allFiles base f l' ops p c hbp hf hc hw] at h
            rw [ih _ _ _ h]
            constructor
            · intro hall g hg hgty c' hgc q hq
              rcases List.mem_cons.mp hg with rfl | hg
              · rw [hc] at hgc; injection hgc with hcc
                rw [hbp] at hq; injection hq with hqq
                rw [← hcc, ← hqq]; exact hw
              · exact hall g hg hgty c' hgc q hq
            · intro hall g hg hgty c' hgc q hq
              exact hall g (List.mem_cons_of_mem f hg) hgty c' hgc q hq
          · rw [syncRunAux_cons_write_fail env allFiles base f l' ops p c hbp hf hc
              (by simpa using hw)] at h
            injection h with h'
            have hb : b = false := (congrArg Prod.fst h').symm
            rw [hb]
            constructor
            · intro hfalse; cases hfalse
            · intro hall
              have := hall f (List.mem_cons_self f l') hf c hc p hbp
              exact absurd this hw

theorem syncRunAux_false_getLast (env : RemoteEnv) (allFiles : List FileSystemItem)
    (base : String) :
    ∀ (l : List FileSystemItem) (ops ops' : List SandboxOp),
      syncRunAux env allFiles base l ops = some (false, ops') →
      ∃ p c, ops'.getLast? = some (SandboxOp.writeFile p c) ∧
        env.writeOk p c = false := by
  intro l
  induction l with
  | nil =>
    intro ops ops' h
    injection h with h'
    cases congrArg Prod.fst h'
  | cons f l' ih =>
    intro ops ops' h
    cases hbp : buildPath allFiles base f with
    | none => rw [syncRunAux_cons_none env allFiles base f l' ops hbp] at h; cases h
    | some p =>
      by_cases hf : f.type = FileType.folder
      · rw [syncRunAux_cons_folder env allFiles base f l' ops p hbp hf] at h
        exact ih _ _ h
      · cases hc : f.content with
        | none =>
          rw [syncRunAux_cons_skip env allFiles base f l' ops p hbp hf hc] at h
          exact ih _ _ h
        | some c =>
          by_cases hw : env.writeOk p c
          · rw [syncRunAux_cons_write_ok env allFiles base f l' ops p c hbp hf hc hw] at h
            exact ih _ _ h
          · rw [syncRunAux_cons_write_fail env allFiles base f l' ops p c hbp hf hc
              (by simpa using hw)] at h
            injection h with h'
            have hops : ops' = ops ++ [SandboxOp.writeFile p c] :=
              (congrArg Prod.snd h').symm
            refine ⟨p, c, ?_, by simpa using hw⟩
            rw [hops, List.getLast?_concat]

/-- C3 amended: a `makeDir` failure is swallowed (the outcome of every
`makeDir` is irrelevant to the run), but a `writeFile` failure aborts the
remaining batch: the run returns `true` iff every file node's write
succeeds, and a `false` run ends at the rejected write — later nodes are
not attempted (not best-effort across nodes). -/
theorem push_write_failure_aborts :
    (∀ (mk₁ mk₂ : String → Bool) (wr : String → String → Bool)
       (files : List FileSystemItem) (base : String),
       syncRun ⟨mk₁, wr⟩ files base = syncRun ⟨mk₂, wr⟩ files base) ∧
    (∀ (env : RemoteEnv) (files : List FileSystemItem) (base : String)
       (b : Bool) (ops : List SandboxOp), syncRun env files base = some (b, ops) →
       (b = true ↔ ∀ f ∈ sortedNonRoot files, f.type ≠ FileType.folder →
         ∀ c, f.content = some c → ∀ p, buildPath files base f = some p →
           env.writeOk p c = true)) ∧
    (∀ (env : RemoteEnv) (files : List FileSystemItem) (base : String)
       (ops : List SandboxOp), syncRun env files base = some (false, ops) →
       ∃ p c, ops.getLast? = some (SandboxOp.writeFile p c) ∧
         env.writeOk p c = false) :=
  ⟨fun mk₁ mk₂ wr files base =>
    syncRunAux_mkdir_irrelevant mk₁ mk₂ wr files base (sortedNonRoot files) [],
   fun env files base b ops h => syncRunAux_success_iff env files base _ _ _ _ h,
   fun env files base ops h => syncRunAux_false_getLast env files base _ _ _ h⟩

/-! ### C4/C5: poller diff correctness and listing failure -/

theorem filter_filter_key {α β : Type} [DecidableEq β] :
    ∀ (l : List α) (key : α → β), (l.map key).Nodup → ∀ x ∈ l, ∀ (pr : α → Bool),
      (l.filter pr).filter (fun y => key y == key x) = if pr x then [x] else [] := by
  intro l key
  induction l with
  | nil => intro _ x hx; cases hx
  | cons y l' ih =>
    intro hn x hx pr
    have hn' : (l'.map key).Nodup := (List.nodup_cons.mp (by simpa using hn)).2
    have hy : key y ∉ l'.map key := (List.nodup_cons.mp (by simpa using hn)).1
    have htail_nil : ∀ (hkx : key y = key x),
        (l'.filter pr).filter (fun y' => key y' == key x) = [] := by
      intro hkx
      apply List.filter_eq_nil.mpr
      intro a ha
      have ha' : a ∈ l' := List.mem_of_mem_filter ha
      have hka : key a ≠ key x := fun h =>
        hy (hkx ▸ h ▸ List.mem_map_of_mem key ha')
      simp [hka]
    by_cases hk : key y = key x
    · have hxy : x = y := by
        rcases List.mem_cons.mp hx with rfl | hx'
        · rfl
        · exact absurd (hk ▸ List.mem_map_of_mem key hx') hy
      subst hxy
      by_cases hpx : pr x = true
      · rw [List.filter_cons, if_pos hpx, List.filter_cons,
          if_pos (by simp), htail_nil rfl, if_pos hpx]
      · rw [List.filter_cons, if_neg hpx, htail_nil rfl, if_neg hpx]
    · have hx' : x ∈ l' := by
        rcases List.mem_cons.mp hx with rfl | hx'
        · exact absurd rfl hk
        · exact hx'
      by_cases hpy : pr y = true
      · rw [List.filter_cons, if_pos hpy, List.filter_cons,
          if_neg (by simp [hk]), ih hn' x hx' pr]
      · rw [List.filter_cons, if_neg hpy, ih hn' x hx' pr]

theorem phase1Event_shape (prev : List (String × Int)) (f : RemoteEntry) :
    phase1Event prev f = [] ∨
    ∃ ty d, phase1Event prev f = [⟨ty, f.path, d⟩] := by
  unfold phase1Event
  cases mapGet prev f.path with
  | none => exact Or.inr ⟨ChangeType.created, f.isDir, rfl⟩
  | some lh =>
    by_cases h : lh ≠ fingerprint f
    · exact Or.inr ⟨ChangeType.modified, f.isDir, by simp [h]⟩
    · exact Or.inl (by simp [h])

theorem flatMap_filter_path (prev : List (String × Int)) :
    ∀ (files : List RemoteEntry) (p : String),
      (files.flatMap (phase1Event prev)).filter (fun e => e.path == p)
        = (files.filter (fun f => f.path == p)).flatMap (phase1Event prev) := by
  intro files
  induction files with
  | nil => intro p; rfl
  | cons f rest ih =>
    intro p
    rw [List.flatMap_cons, List.filter_append, ih, List.filter_cons]
    by_cases hp : f.path = p
    · rw [if_pos (by simp [hp]), List.flatMap_cons]
      congr 1
      apply List.filter_eq_self.mpr
      intro e he
      rw [phase1Event_path prev f e he, hp]
      simp
    · rw [if_neg (by simp [hp])]
      have hnil : (phase1Event prev f).filter (fun e => e.path == p) = [] := by
        apply List.filter_eq_nil.mpr
        intro e he
        rw [phase1Event_path prev f e he]
        simp [hp]
      rw [hnil, List.nil_append]

theorem mapSet_hasKey (m : List (String × Int)) (kk : String) (v : Int) (k : String) :
    ((mapSet m kk v).any (fun kv => kv.1 == k) = true)
      ↔ (m.any (fun kv => kv.1 == k) = true ∨ kk = k) := by
  unfold mapSet
  by_cases hm : m.any (fun kv => kv.1 == kk) = true
  · rw [if_pos hm]
    constructor
    · intro h
      rcases List.any_eq_true.mp h with ⟨kv', hkv', hk'⟩
      rcases List.mem_map.mp hkv' with ⟨kv, hkv, hrepl⟩
      by_cases he : kv.1 = kk
      · have hkv'' : kv' = (kk, v) := by rw [← hrepl, if_pos he]
        rw [hkv''] at hk'
        exact Or.inr (by simpa using hk')
      · have hkv'' : kv' = kv := by rw [← hrepl, if_neg he]
        rw [hkv''] at hk'
        exact Or.inl (List.any_eq_true.mpr ⟨kv, hkv, hk'⟩)
    · intro h
      rcases h with h | rfl
      · rcases List.any_eq_true.mp h with ⟨kv, hkv, hk⟩
        apply List.any_eq_true.mpr
        by_cases he : kv.1 = kk
        · refine ⟨(kk, v), List.mem_map.mpr ⟨kv, hkv, by rw [if_pos he]⟩, ?_⟩
          have hk1 : kv.1 = k := by simpa using hk
          simp [← he, hk1]
        · exact ⟨kv, List.mem_map.mpr ⟨kv, hkv, by rw [if_neg he]⟩, hk⟩
      · rcases List.any_eq_true.mp hm with ⟨kv, hkv, hk⟩
        have he : kv.1 = kk := by simpa using hk
        exact List.any_eq_true.mpr
          ⟨(kk, v), List.mem_map.mpr ⟨kv, hkv, by rw [if_pos he]⟩, by simp⟩
  · rw [if_neg hm, List.any_append]
    simp only [Bool.or_eq_true]
    constructor
    · rintro (h | h)
      · exact Or.inl h
      · rcases List.any_eq_true.mp h with ⟨kv, hkv, hk⟩
        have hkveq : kv = (kk, v) := by simpa using hkv
        rw [hkveq] at hk
        exact Or.inr (by simpa using hk)
    · rintro (h | rfl)
      · exact Or.inl h
      · exact Or.inr (List.any_eq_true.mpr ⟨(kk, v), by simp⟩)

theorem foldl_hasKey :
    ∀ (files : List RemoteEntry) (cur : List (String × Int)) (k : String),
      ((files.foldl (fun m f => mapSet m f.path (fingerprint f)) cur).any
          (fun kv => kv.1 == k) = true)
        ↔ (cur.any (fun kv => kv.1 == k) = true ∨ ∃ f ∈ files, f.path = k) := by
  intro files
  induction files with
  | nil => intro cur k; simp
  | cons f rest ih =>
    intro cur k
    rw [List.foldl_cons, ih, mapSet_hasKey]
    constructor
    · rintro ((h | h) | ⟨g, hg, hgk⟩)
      · exact Or.inl h
      · exact Or.inr ⟨f, List.mem_cons_self f rest, h⟩
      · exact Or.inr ⟨g, List.mem_cons_of_mem f hg, hgk⟩
    · rintro (h | ⟨g, hg, hgk⟩)
      · exact Or.inl (Or.inl h)
      · rcases List.mem_cons.mp hg with rfl | hg'
        · exact Or.inl (Or.inr hgk)
        · exact Or.inr ⟨g, hg', hgk⟩

/-- The events of one tick: the per-entry created/modified events in
listing order, then one deleted event per previously known path absent
from the new map. -/
theorem pollTick_fst (prev : List (String × Int)) (files : List RemoteEntry) :
    (pollTick prev files).1
      = files.flatMap (phase1Event prev)
        ++ (prev.filter (watchAbsent files)).map
           (fun kv => (⟨ChangeType.deleted, kv.1, false⟩ : FileChangeEvent)) := by
  unfold pollTick
  simp only [pollFold_fst, pollFold_snd, List.nil_append]
  rfl

theorem watchAbsent_false_of_mem (files : List RemoteEntry) (f : RemoteEntry)
    (kv : String × Int) (hf : f ∈ files) (hp : f.path = kv.1) :
    watchAbsent files kv = false := by
  unfold watchAbsent
  have hany := (foldl_hasKey files [] kv.1).mpr (Or.inr ⟨f, hf, hp⟩)
  rw [hany]
  rfl

theorem watchAbsent_true_of_absent (files : List RemoteEntry) (kv : String × Int)
    (h : ∀ f ∈ files, f.path ≠ kv.1) :
    watchAbsent files kv = true := by
  unfold watchAbsent
  have hfalse : ((files.foldl (fun m f => mapSet m f.path (fingerprint f)) []).any
      (fun kv' => kv'.1 == kv.1)) = false := by
    rw [Bool.eq_false_iff]
    intro hX
    rcases (foldl_hasKey files [] kv.1).mp hX with h' | ⟨g, hg, hgk⟩
    · simp at h'
    · exact h g hg hgk
  rw [hfalse]
  rfl

theorem eventCount_append (l₁ l₂ : List FileChangeEvent) (ty : ChangeType) (p : String) :
    eventCount (l₁ ++ l₂) ty p = eventCount l₁ ty p + eventCount l₂ ty p := by
  simp [eventCount, List.filter_append]

theorem eventCount_eq_filter_path (l : List FileChangeEvent) (ty : ChangeType) (p : String) :
    eventCount l ty p = ((l.filter (fun e => e.path == p)).filter
      (fun e => e.type == ty)).length := by
  unfold eventCount
  rw [List.filter_filter]

theorem eventCount_phase1_unique (prev : List (String × Int))
    (files : List RemoteEntry) (hn : (files.map RemoteEntry.path).Nodup)
    (f : RemoteEntry) (hf : f ∈ files) (ty : ChangeType) :
    eventCount (files.flatMap (phase1Event prev)) ty f.path
      = eventCount (phase1Event prev f) ty f.path := by
  have hsingle : files.filter (fun g => g.path == f.path) = [f] := by
    have h := filter_filter_key files RemoteEntry.path hn f hf (fun _ => true)
    simpa [List.filter_true] using h
  rw [eventCount_eq_filter_path, flatMap_filter_path, hsingle,
    List.flatMap_cons, List.flatMap_nil, List.append_nil]
  unfold eventCount
  apply congrArg List.length
  apply List.filter_congr
  intro e he
  rw [phase1Event_path prev f e he]
  simp

theorem eventCount_phase1_absent (prev : List (String × Int))
    (files : List RemoteEntry) (p : String) (hp : ∀ f ∈ files, f.path ≠ p)
    (ty : ChangeType) :
    eventCount (files.flatMap (phase1Event prev)) ty p = 0 := by
  rw [eventCount_eq_filter_path, flatMap_filter_path]
  have hnil : files.filter (fun g => g.path == p) = [] := by
    apply List.filter_eq_nil.mpr
    intro g hg
    simp [hp g hg]
  rw [hnil]
  rfl

theorem eventCount_dels (prev : List (String × Int)) (cond : String × Int → Bool)
    (ty : ChangeType) (p : String) :
    eventCount ((prev.filter cond).map
        (fun kv => (⟨ChangeType.deleted, kv.1, false⟩ : FileChangeEvent))) ty p
      = if ty = ChangeType.deleted
        then (((prev.filter cond)).filter (fun kv => kv.1 == p)).length
        else 0 := by
  unfold eventCount
  rw [List.map_filter, List.length_map]
  by_cases hty : ty = ChangeType.deleted
  · rw [if_pos hty]
    apply congrArg List.length
    apply List.filter_congr
    intro kv _
    simp [Function.comp, hty]
  · rw [if_neg hty]
    have hnil : ((prev.filter cond).filter
        ((fun e => e.type == ty && e.path == p) ∘
          fun kv => (⟨ChangeType.deleted, kv.1, false⟩ : FileChangeEvent))) = [] := by
      apply List.filter_eq_nil.mpr
      intro kv _
      simp only [Function.comp, Bool.and_eq_true, beq_iff_eq, not_and]
      intro h
      exact absurd h.symm hty
    rw [hnil]
    rfl

theorem eventCount_singleton (ty ty' : ChangeType) (p : String) (d : Bool) :
    eventCount [⟨ty', p, d⟩] ty p = if ty' = ty then 1 else 0 := by
  cases ty <;> cases ty' <;>
    first
      | rfl
      | simp [eventCount, List.filter]

/-- C4: one poller tick emits exactly one `created` per newly appeared
path, exactly one `modified` per path whose fingerprint changed, exactly
one `deleted` per vanished path, and nothing for an unchanged path
(given, as the map invariants provide, duplicate-free previous keys and
listing paths); on the spec's concrete instance the tick from
`{a ↦ "x", b ↦ "y"}` to `{a: "x", c: "z"}` emits exactly `created(c)` and
`deleted(b)` and nothing for `a`. -/
theorem poller_diff_events :
    (∀ (prev : List (String × Int)) (files : List RemoteEntry),
      (prev.map Prod.fst).Nodup → (files.map RemoteEntry.path).Nodup →
      (∀ f ∈ files,
        (mapGet prev f.path = none →
          eventCount (pollTick prev files).1 ChangeType.created f.path = 1 ∧
          eventCount (pollTick prev files).1 ChangeType.modified f.path = 0 ∧
          eventCount (pollTick prev files).1 ChangeType.deleted f.path = 0) ∧
        (∀ lh, mapGet prev f.path = some lh → lh ≠ fingerprint f →
          eventCount (pollTick prev files).1 ChangeType.created f.path = 0 ∧
          eventCount (pollTick prev files).1 ChangeType.modified f.path = 1 ∧
          eventCount (pollTick prev files).1 ChangeType.deleted f.path = 0) ∧
        (∀ lh, mapGet prev f.path = some lh → lh = fingerprint f →
          eventCount (pollTick prev files).1 ChangeType.created f.path = 0 ∧
          eventCount (pollTick prev files).1 ChangeType.modified f.path = 0 ∧
          eventCount (pollTick prev files).1 ChangeType.deleted f.path = 0)) ∧
      (∀ kv ∈ prev, (∀ f ∈ files, f.path ≠ kv.1) →
          eventCount (pollTick prev files).1 ChangeType.created kv.1 = 0 ∧
          eventCount (pollTick prev files).1 ChangeType.modified kv.1 = 0 ∧
          eventCount (pollTick prev files).1 ChangeType.deleted kv.1 = 1)) ∧
    pollTick [("/home/user/a", 1), ("/home/user/b", 1)]
        [⟨"/home/user/a", false, some "x"⟩, ⟨"/home/user/c", false, some "z"⟩]
      = ([⟨ChangeType.created, "/home/user/c", false⟩,
          ⟨ChangeType.deleted, "/home/user/b", false⟩],
         [("/home/user/a", 1), ("/home/user/c", 1)]) := by
  constructor
  · intro prev files hnp hnf
    have hdelcount : ∀ (p : String) (ty : ChangeType),
        eventCount (pollTick prev files).1 ty p
          = eventCount (files.flatMap (phase1Event prev)) ty p
            + (if ty = ChangeType.deleted
               then ((prev.filter (watchAbsent files)).filter
                 (fun kv => kv.1 == p)).length
               else 0) := by
      intro p ty
      rw [pollTick_fst, eventCount_append, eventCount_dels]
    constructor
    · intro f hf
      have hph : ∀ ty, eventCount (files.flatMap (phase1Event prev)) ty f.path
          = eventCount (phase1Event prev f) ty f.path :=
        fun ty => eventCount_phase1_unique prev files hnf f hf ty
      have hdel0 : ((prev.filter (watchAbsent files)).filter
          (fun kv => kv.1 == f.path)).length = 0 := by
        cases hg : mapGet prev f.path with
        | none =>
          have hfind : prev.find? (fun kv => kv.1 == f.path) = none := by
            unfold mapGet at hg
            exact Option.map_eq_none'.mp hg
          have hnil : (prev.filter (watchAbsent files)).filter
              (fun kv => kv.1 == f.path) = [] := by
            apply List.filter_eq_nil.mpr
            intro kv hkv
            have hkv' : kv ∈ prev := List.mem_of_mem_filter hkv
            have := List.find?_eq_none.mp hfind kv hkv'
            simpa using this
          rw [hnil]
          rfl
        | some lh =>
          unfold mapGet at hg
          obtain ⟨kv₀, hkv₀f, _⟩ := Option.map_eq_some'.mp hg
          have hkv₀mem : kv₀ ∈ prev := List.mem_of_find?_eq_some hkv₀f
          have hkv₀key : kv₀.1 = f.path := by
            have := List.find?_some hkv₀f
            simpa using this
          have hcondfalse : watchAbsent files kv₀ = false :=
            watchAbsent_false_of_mem files f kv₀ hf hkv₀key.symm
          have h := filter_filter_key prev Prod.fst hnp kv₀ hkv₀mem (watchAbsent files)
          rw [← hkv₀key] at *
          rw [show (fun kv : String × Int => kv.1 == kv₀.1)
            = (fun y : String × Int => y.1 == kv₀.1) from rfl, h,
            if_neg (by simp [hcondfalse])]
          rfl
      refine ⟨fun hnone => ?_, fun lh hsome hne => ?_, fun lh hsome heq => ?_⟩
      · have hev : phase1Event prev f = [⟨ChangeType.created, f.path, f.isDir⟩] := by
          unfold phase1Event
          rw [hnone]
        refine ⟨?_, ?_, ?_⟩ <;>
          rw [hdelcount, hph, hev, eventCount_singleton, hdel0] <;> simp
      · have hev : phase1Event prev f = [⟨ChangeType.modified, f.path, f.isDir⟩] := by
          unfold phase1Event
          rw [hsome]
          show (if lh ≠ fingerprint f
            then [(⟨ChangeType.modified, f.path, f.isDir⟩ : FileChangeEvent)]
            else []) = _
          rw [if_pos hne]
        refine ⟨?_, ?_, ?_⟩ <;>
          rw [hdelcount, hph, hev, eventCount_singleton, hdel0] <;> simp
      · have hev : phase1Event prev f = [] := by
          unfold phase1Event
          rw [hsome]
          show (if lh ≠ fingerprint f
            then [(⟨ChangeType.modified, f.path, f.isDir⟩ : FileChangeEvent)]
            else []) = _
          rw [if_neg (not_not_intro heq)]
        refine ⟨?_, ?_, ?_⟩ <;>
          rw [hdelcount, hph, hev, hdel0] <;> simp [eventCount]
    · intro kv hkv habs
      have hph0 : ∀ ty, eventCount (files.flatMap (phase1Event prev)) ty kv.1 = 0 :=
        fun ty => eventCount_phase1_absent prev files kv.1 habs ty
      have hcond : watchAbsent files kv = true :=
        watchAbsent_true_of_absent files kv habs
      have hdel1 : ((prev.filter (watchAbsent files)).filter
          (fun kv' => kv'.1 == kv.1)).length = 1 := by
        have h := filter_filter_key prev Prod.fst hnp kv hkv (watchAbsent files)
        rw [show (fun kv' : String × Int => kv'.1 == kv.1)
          = (fun y : String × Int => y.1 == kv.1) from rfl, h, if_pos hcond]
        rfl
      refine ⟨?_, ?_, ?_⟩ <;> rw [hdelcount, hph0, hdel1] <;> simp
  · decide

/-- Witness for `poller_diff_events` at the spec's concrete two-tick
instance. -/
theorem poller_diff_events_witness :
    eventCount (pollTick [("/home/user/a", 1), ("/home/user/b", 1)]
        [⟨"/home/user/a", false, some "x"⟩, ⟨"/home/user/c", false, some "z"⟩]).1
      ChangeType.deleted "/home/user/b" = 1 :=
  ((poller_diff_events.1 [("/home/user/a", 1), ("/home/user/b", 1)]
      [⟨"/home/user/a", false, some "x"⟩, ⟨"/home/user/c", false, some "z"⟩]
      (by decide) (by decide)).2 ("/home/user/b", 1) (by decide) (by decide)).2.2

/-- C5 (code defect relative to the claim): when the root listing call
rejects, `listAllFiles` swallows the error and returns an empty listing,
so the tick emits a spurious `deleted` for every previously known path
and replaces the fingerprint map with the empty map, instead of skipping
the tick and retaining the map. -/
theorem listing_failure_spurious_deletes :
    listAll failListEnv 5 "/home/user" = [] ∧
    pollTick [("/home/user/a.txt", 1)] (listAll failListEnv 5 "/home/user")
      = ([⟨ChangeType.deleted, "/home/user/a.txt", false⟩], []) := by
  constructor
  · rfl
  · decide

/-- Witness for `push_write_failure_aborts` at concrete inputs. -/
theorem push_write_failure_aborts_witness :
    (syncRun ⟨fun _ => false, failAEnv.writeOk⟩ filesC3 "/home/user"
      = syncRun ⟨fun _ => true, failAEnv.writeOk⟩ filesC3 "/home/user") ∧
    (false = true ↔ ∀ f ∈ sortedNonRoot filesC3, f.type ≠ FileType.folder →
      ∀ c, f.content = some c → ∀ p, buildPath filesC3 "/home/user" f = some p →
        failAEnv.writeOk p c = true) ∧
    (∃ p c, [SandboxOp.writeFile "/home/user/a.txt" "1"].getLast?
        = some (SandboxOp.writeFile p c) ∧ failAEnv.writeOk p c = false) :=
  ⟨push_write_failure_aborts.1 (fun _ => false) (fun _ => true) failAEnv.writeOk
     filesC3 "/home/user",
   push_write_failure_aborts.2.1 failAEnv filesC3 "/home/user" false
     [SandboxOp.writeFile "/home/user/a.txt" "1"] (by decide),
   push_write_failure_aborts.2.2 failAEnv filesC3 "/home/user"
     [SandboxOp.writeFile "/home/user/a.txt" "1"] (by decide)⟩

/-! ### C1/C6: merge characterisation -/

theorem lookupLast_mem (m : List (Option String × String)) (k : Option String)
    (v : String) (h : lookupLast m k = some v) : (k, v) ∈ m := by
  unfold lookupLast at h
  rcases Option.map_eq_some'.mp h with ⟨kv, hfind, hv⟩
  have hmem : kv ∈ m.reverse := List.mem_of_find?_eq_some hfind
  have hk : kv.1 = k := by
    have := List.find?_some hfind
    simpa using this
  have hkv : kv = (k, v) := by
    rw [Prod.ext_iff]
    exact ⟨hk, hv⟩
  rw [← hkv]
  exact List.mem_reverse.mp hmem

theorem buildPathMap_val (prev : List FileSystemItem) (q : Option String) (eid : String)
    (h : lookupLast (buildPathMap prev) q = some eid) :
    eid ∈ prev.map FileSystemItem.id ∧ q = pathOf prev eid := by
  have hmem := lookupLast_mem _ _ _ h
  unfold buildPathMap at hmem
  rcases List.mem_map.mp hmem with ⟨f, hf, hfq⟩
  have h1 : pathOf prev f.id = q := (congrArg Prod.fst hfq)
  have h2 : f.id = eid := (congrArg Prod.snd hfq)
  constructor
  · rw [← h2]; exact List.mem_map_of_mem _ hf
  · rw [← h1, h2]

theorem updEntry_id (pm : List (Option String × String)) (sbTree l : List FileSystemItem)
    (f : FileSystemItem) : (updEntry pm sbTree l f).id = f.id := by
  unfold updEntry
  cases updaterP pm sbTree l f.id with
  | none => rfl
  | some s =>
    show (match s.content with
      | some c => { f with content := some c }
      | none => f).id = f.id
    cases s.content with
    | none => rfl
    | some c => rfl

theorem updEntry_set_content (pm : List (Option String × String))
    (sbTree l : List FileSystemItem) (f : FileSystemItem) (c : String) :
    { updEntry pm sbTree l f with content := some c } = { f with content := some c } := by
  unfold updEntry
  cases updaterP pm sbTree l f.id with
  | none => rfl
  | some s =>
    show { (match s.content with
      | some c' => { f with content := some c' }
      | none => f) with content := some c } = { f with content := some c }
    cases s.content with
    | none => rfl
    | some c' => rfl

theorem updaterP_append (pm : List (Option String × String))
    (sbTree l : List FileSystemItem) (s : FileSystemItem) (fid : String) :
    updaterP pm sbTree (l ++ [s]) fid
      = if lookupLast pm (pathOf sbTree s.id) = some fid ∧
            fid ≠ "" ∧ s.type = FileType.file ∧ s.content ≠ none
        then some s else updaterP pm sbTree l fid := by
  unfold updaterP
  rw [List.filter_append]
  by_cases h : lookupLast pm (pathOf sbTree s.id) = some fid ∧
      fid ≠ "" ∧ s.type = FileType.file ∧ s.content ≠ none
  · rw [if_pos h]
    have hs : ([s].filter (fun s' =>
        decide (lookupLast pm (pathOf sbTree s'.id) = some fid ∧
          fid ≠ "" ∧ s'.type = FileType.file ∧ s'.content ≠ none))) = [s] := by
      simp [h]
    rw [hs, List.getLast?_concat]
  · rw [if_neg h]
    have hs : ([s].filter (fun s' =>
        decide (lookupLast pm (pathOf sbTree s'.id) = some fid ∧
          fid ≠ "" ∧ s'.type = FileType.file ∧ s'.content ≠ none))) = [] := by
      simp [h]
    rw [hs, List.append_nil]

theorem appendedP_append (pm : List (Option String × String))
    (sbTree l : List FileSystemItem) (s : FileSystemItem) :
    appendedP pm sbTree (l ++ [s])
      = appendedP pm sbTree l ++
        (if lookupLast pm (pathOf sbTree s.id) = none then [s] else []) := by
  unfold appendedP
  rw [List.filter_append]
  by_cases h : lookupLast pm (pathOf sbTree s.id) = none
  · rw [if_pos h]
    congr 1
    simp [h]
  · rw [if_neg h]
    congr 1
    simp [h]

theorem updatedP_snoc_of_ne (pm : List (Option String × String))
    (sbTree prev l : List FileSystemItem) (s : FileSystemItem)
    (h : ∀ f ∈ prev, ¬(lookupLast pm (pathOf sbTree s.id) = some f.id ∧
      f.id ≠ "" ∧ s.type = FileType.file ∧ s.content ≠ none)) :
    updatedP pm sbTree prev (l ++ [s]) = updatedP pm sbTree prev l := by
  unfold updatedP
  apply List.map_congr_left
  intro f hf
  unfold updEntry
  rw [updaterP_append, if_neg (h f hf)]

theorem findIdx?_lt_length {α : Type} :
    ∀ (l : List α) (p : α → Bool) (j : Nat), l.findIdx? p = some j → j < l.length := by
  intro l
  induction l with
  | nil => intro p j h; cases h
  | cons x xs ih =>
    intro p j h
    rw [List.findIdx?_cons] at h
    by_cases hx : p x = true
    · rw [if_pos hx] at h
      injection h with h'
      simp [← h']
    · rw [if_neg hx, List.findIdx?_succ] at h
      rcases Option.map_eq_some'.mp h with ⟨j', hj', hjj⟩
      have := ih p j' hj'
      simp only [List.length_cons]
      omega

theorem findIdx?_isSome_of_mem (l : List FileSystemItem) (eid : String)
    (h : eid ∈ l.map FileSystemItem.id) :
    ∃ j, l.findIdx? (fun f => f.id == eid) = some j := by
  induction l with
  | nil => cases h
  | cons x xs ih =>
    rw [List.findIdx?_cons]
    by_cases hx : x.id = eid
    · exact ⟨0, by rw [if_pos (by simp [hx])]⟩
    · have hxs : eid ∈ xs.map FileSystemItem.id := by
        rcases List.mem_map.mp h with ⟨g, hg, hgid⟩
        rcases List.mem_cons.mp hg with rfl | hg'
        · exact absurd hgid hx
        · rw [← hgid]; exact List.mem_map_of_mem _ hg'
      rcases ih hxs with ⟨j, hj⟩
      exact ⟨j + 1, by rw [if_neg (by simp [hx]), List.findIdx?_succ, hj]; rfl⟩

theorem findIdx?_map_id (l : List FileSystemItem) (g : FileSystemItem → FileSystemItem)
    (hg : ∀ x, (g x).id = x.id) (eid : String) :
    (l.map g).findIdx? (fun f => f.id == eid) = l.findIdx? (fun f => f.id == eid) := by
  have hpred : (fun f => f.id == eid) ∘ g = (fun f : FileSystemItem => f.id == eid) := by
    funext x
    simp [Function.comp, hg x]
  rw [List.findIdx?_map, hpred]

theorem updAt_append_left :
    ∀ (l₁ l₂ : List FileSystemItem) (i : Nat) (c : String), i < l₁.length →
      updAt (l₁ ++ l₂) i c = updAt l₁ i c ++ l₂ := by
  intro l₁
  induction l₁ with
  | nil => intro l₂ i c h; cases h
  | cons f fs ih =>
    intro l₂ i c h
    cases i with
    | zero => rfl
    | succ j =>
      show f :: updAt (fs ++ l₂) j c = (f :: updAt fs j c) ++ l₂
      rw [List.cons_append, ih l₂ j c (by simpa using h)]

theorem updatedP_update (pm : List (Option String × String))
    (sbTree done : List FileSystemItem) (s : FileSystemItem) (c : String) (eid : String)
    (hcond : lookupLast pm (pathOf sbTree s.id) = some eid ∧ eid ≠ "" ∧
      s.type = FileType.file ∧ s.content = some c) :
    ∀ (prev : List FileSystemItem), (prev.map FileSystemItem.id).Nodup →
      ∀ j, prev.findIdx? (fun f => f.id == eid) = some j →
        updAt (updatedP pm sbTree prev done) j c
          = updatedP pm sbTree prev (done ++ [s]) := by
  intro prev
  induction prev with
  | nil => intro _ j h; cases h
  | cons x rest ih =>
    intro hn j hj
    have hn' : (rest.map FileSystemItem.id).Nodup :=
      (List.nodup_cons.mp (by simpa using hn)).2
    have hx_notin : x.id ∉ rest.map FileSystemItem.id :=
      (List.nodup_cons.mp (by simpa using hn)).1
    rw [List.findIdx?_cons] at hj
    by_cases hx : x.id = eid
    · rw [if_pos (by simp [hx])] at hj
      injection hj with hj'
      subst hj'
      show { updEntry pm sbTree done x with content := some c } ::
          rest.map (updEntry pm sbTree done)
        = updEntry pm sbTree (done ++ [s]) x :: rest.map (updEntry pm sbTree (done ++ [s]))
      congr 1
      · rw [updEntry_set_content]
        have hcx : lookupLast pm (pathOf sbTree s.id) = some x.id ∧
            x.id ≠ "" ∧ s.type = FileType.file ∧ s.content ≠ none := by
          refine ⟨by rw [hx]; exact hcond.1, by rw [hx]; exact hcond.2.1,
            hcond.2.2.1, by rw [hcond.2.2.2]; simp⟩
        unfold updEntry
        rw [updaterP_append, if_pos hcx]
        show { x with content := some c }
          = (match s.content with
             | some c' => { x with content := some c' }
             | none => x)
        rw [hcond.2.2.2]
      · apply List.map_congr_left
        intro y hy
        have hy_ne : y.id ≠ eid := by
          intro he
          exact hx_notin (hx ▸ he ▸ List.mem_map_of_mem _ hy)
        unfold updEntry
        rw [updaterP_append, if_neg ?_]
        intro hcy
        exact hy_ne (by
          have h1 := hcond.1
          have h2 := hcy.1
          rw [h1] at h2
          injection h2 with h3
          exact h3.symm)
    · rw [if_neg (by simp [hx]), List.findIdx?_succ] at hj
      rcases Option.map_eq_some'.mp hj with ⟨j', hj', hjj⟩
      subst hjj
      show updEntry pm sbTree done x :: updAt (rest.map (updEntry pm sbTree done)) j' c
        = updEntry pm sbTree (done ++ [s]) x :: rest.map (updEntry pm sbTree (done ++ [s]))
      congr 1
      · unfold updEntry
        rw [updaterP_append, if_neg ?_]
        intro hcx
        exact hx (by
          have h1 := hcond.1
          have h2 := hcx.1
          rw [h1] at h2
          injection h2 with h3
          exact h3.symm)
      · exact ih hn' j' hj'

theorem mergeStep_none (pm : List (Option String × String))
    (sbTree : List FileSystemItem) (acc : List FileSystemItem) (s : FileSystemItem)
    (h : lookupLast pm (pathOf sbTree s.id) = none) :
    mergeStep pm sbTree acc s = acc ++ [s] := by
  simp only [mergeStep, h]

theorem mergeStep_some (pm : List (Option String × String))
    (sbTree : List FileSystemItem) (acc : List FileSystemItem) (s : FileSystemItem)
    (eid : String) (h : lookupLast pm (pathOf sbTree s.id) = some eid) :
    mergeStep pm sbTree acc s
      = if eid ≠ "" ∧ s.type = FileType.file then
          match acc.findIdx? (fun f => f.id == eid), s.content with
          | some idx, some c => updAt acc idx c
          | _, _ => acc
        else acc := by
  simp only [mergeStep, h]

theorem mergeStep_char (pm : List (Option String × String))
    (sbTree prev : List FileSystemItem)
    (hv : ∀ kv ∈ pm, kv.2 ∈ prev.map FileSystemItem.id)
    (hn : (prev.map FileSystemItem.id).Nodup)
    (done : List FileSystemItem) (s : FileSystemItem) :
    mergeStep pm sbTree (updatedP pm sbTree prev done ++ appendedP pm sbTree done) s
      = updatedP pm sbTree prev (done ++ [s]) ++ appendedP pm sbTree (done ++ [s]) := by
  cases hlk : lookupLast pm (pathOf sbTree s.id) with
  | none =>
    rw [mergeStep_none pm sbTree _ s hlk,
      updatedP_snoc_of_ne pm sbTree prev done s
        (fun f _ hcf => by rw [hlk] at hcf; cases hcf.1),
      appendedP_append, hlk, if_pos rfl, List.append_assoc]
  | some eid =>
    have heid_mem : eid ∈ prev.map FileSystemItem.id := by
      have := lookupLast_mem pm (pathOf sbTree s.id) eid hlk
      exact hv _ this
    rw [mergeStep_some pm sbTree _ s eid hlk, appendedP_append, hlk,
      if_neg (fun h => Option.noConfusion h), List.append_nil]
    by_cases hok : eid ≠ "" ∧ s.type = FileType.file
    · rw [if_pos hok]
      cases hc : s.content with
      | none =>
        rw [updatedP_snoc_of_ne pm sbTree prev done s
          (fun f _ hcf => by rw [hc] at hcf; exact hcf.2.2.2 rfl)]
        cases (updatedP pm sbTree prev done ++ appendedP pm sbTree done).findIdx?
            (fun f => f.id == eid) with
        | none => rfl
        | some idx => rfl
      | some c =>
        rcases findIdx?_isSome_of_mem prev eid heid_mem with ⟨j, hj⟩
        have hjlen : j < prev.length := findIdx?_lt_length prev _ j hj
        have hmap : (updatedP pm sbTree prev done).findIdx? (fun f => f.id == eid)
            = some j := by
          unfold updatedP
          rw [findIdx?_map_id prev _ (updEntry_id pm sbTree done) eid, hj]
        have happ : ((updatedP pm sbTree prev done ++ appendedP pm sbTree done).findIdx?
            (fun f => f.id == eid)) = some j := by
          rw [List.findIdx?_append, hmap]
          rfl
        rw [happ]
        show updAt (updatedP pm sbTree prev done ++ appendedP pm sbTree done) j c
          = updatedP pm sbTree prev (done ++ [s]) ++ appendedP pm sbTree done
        have hlen' : j < (updatedP pm sbTree prev done).length := by
          unfold updatedP
          rw [List.length_map]
          exact hjlen
        rw [updAt_append_left _ _ j c hlen',
          updatedP_update pm sbTree done s c eid ⟨hlk, hok.1, hok.2, hc⟩ prev hn j hj]
    · rw [if_neg hok]
      rw [updatedP_snoc_of_ne pm sbTree prev done s (fun f _ hcf => by
        apply hok
        have h2 := hcf.1
        rw [hlk] at h2
        injection h2 with h3
        exact ⟨h3 ▸ hcf.2.1, hcf.2.2.1⟩)]

theorem merge_fold_char (pm : List (Option String × String))
    (sbTree prev : List FileSystemItem)
    (hv : ∀ kv ∈ pm, kv.2 ∈ prev.map FileSystemItem.id)
    (hn : (prev.map FileSystemItem.id).Nodup) :
    ∀ (l done : List FileSystemItem),
      l.foldl (mergeStep pm sbTree)
          (updatedP pm sbTree prev done ++ appendedP pm sbTree done)
        = updatedP pm sbTree prev (done ++ l) ++ appendedP pm sbTree (done ++ l) := by
  intro l
  induction l with
  | nil => intro done; simp
  | cons s l' ih =>
    intro done
    rw [List.foldl_cons, mergeStep_char pm sbTree prev hv hn done s, ih (done ++ [s]),
      List.append_assoc]
    rfl

theorem updatedP_nil (pm : List (Option String × String))
    (sbTree prev : List FileSystemItem) : updatedP pm sbTree prev [] = prev := by
  unfold updatedP
  have h : ∀ f ∈ prev, updEntry pm sbTree [] f = f := by
    intro f _
    unfold updEntry updaterP
    rfl
  rw [List.map_congr_left h]
  simp

/-- The merge is exactly: overwrite each local node's content with its
final fresh writer, then append the fresh nodes whose path was unknown
(assuming duplicate-free local ids, as minted by creation and pull). -/
theorem merge_char (prev sb : List FileSystemItem)
    (hn : (prev.map FileSystemItem.id).Nodup) :
    mergeWithSandboxFiles prev sb = updatedPrev prev sb ++ appendedFiles prev sb := by
  have hv : ∀ kv ∈ buildPathMap prev, kv.2 ∈ prev.map FileSystemItem.id := by
    intro kv hkv
    unfold buildPathMap at hkv
    rcases List.mem_map.mp hkv with ⟨f, hf, hfe⟩
    rw [← hfe]
    exact List.mem_map_of_mem _ hf
  have h0 := merge_fold_char (buildPathMap prev) (rootItem :: sb) prev hv hn sb []
  rw [updatedP_nil] at h0
  unfold mergeWithSandboxFiles updatedPrev appendedFiles
  rw [show appendedP (buildPathMap prev) (rootItem :: sb) [] = [] from rfl,
    List.append_nil] at h0
  rw [h0]
  rfl

theorem find?_id_nodup :
    ∀ (l : List FileSystemItem), (l.map FileSystemItem.id).Nodup →
      ∀ L ∈ l, l.find? (fun f => f.id == L.id) = some L := by
  intro l
  induction l with
  | nil => intro _ L hL; cases hL
  | cons x rest ih =>
    intro hn L hL
    have hn' : (rest.map FileSystemItem.id).Nodup :=
      (List.nodup_cons.mp (by simpa using hn)).2
    have hx_notin : x.id ∉ rest.map FileSystemItem.id :=
      (List.nodup_cons.mp (by simpa using hn)).1
    by_cases hx : x.id = L.id
    · have hLx : L = x := by
        rcases List.mem_cons.mp hL with rfl | hL'
        · rfl
        · exact absurd (List.mem_map_of_mem _ hL') (hx ▸ hx_notin)
      rw [List.find?_cons, hLx]
      simp
    · have hL' : L ∈ rest := by
        rcases List.mem_cons.mp hL with rfl | hL'
        · exact absurd rfl hx
        · exact hL'
      rw [List.find?_cons]
      have : (x.id == L.id) = false := by simp [hx]
      rw [this]
      exact ih hn' L hL'

theorem getLast?_all_eq {α : Type} :
    ∀ (l : List α) (x : α), l ≠ [] → (∀ y ∈ l, y = x) → l.getLast? = some x := by
  intro l
  induction l with
  | nil => intro x h _; exact absurd rfl h
  | cons y rest ih =>
    intro x _ hall
    cases rest with
    | nil =>
      have hy : y = x := hall y (List.mem_cons_self y [])
      rw [hy]
      rfl
    | cons z rest' =>
      rw [List.getLast?_cons_cons]
      exact ih x (by simp) (fun y' hy' => hall y' (List.mem_cons_of_mem _ hy'))

/-- C1: when a fresh file's derived path matches the derived path owned by
the local node `L` (and it is the only fresh node at that path), the merge
keeps the node under the local id `L.id` with every field of `L` intact
except `content`, which is overwritten with the fresh file's content; the
fresh id is not adopted for that path. -/
theorem merge_keeps_local_id (prev sb : List FileSystemItem)
    (L S : FileSystemItem) (c : String)
    (hn : (prev.map FileSystemItem.id).Nodup)
    (hL : L ∈ prev) (hLid : L.id ≠ "")
    (hOwner : lookupLast (buildPathMap prev) (pathOf prev L.id) = some L.id)
    (hS : S ∈ sb) (hSty : S.type = FileType.file) (hSc : S.content = some c)
    (hMatch : pathOf (rootItem :: sb) S.id = pathOf prev L.id)
    (hUniq : ∀ T ∈ sb, pathOf (rootItem :: sb) T.id = pathOf prev L.id → T = S) :
    (mergeWithSandboxFiles prev sb).find? (fun f => f.id == L.id)
      = some { L with content := some c } := by
  rw [merge_char prev sb hn]
  have hupdater : updaterP (buildPathMap prev) (rootItem :: sb) sb L.id = some S := by
    unfold updaterP
    apply getLast?_all_eq
    · intro hnil
      have hScond : (decide (lookupLast (buildPathMap prev)
          (pathOf (rootItem :: sb) S.id) = some L.id ∧
          L.id ≠ "" ∧ S.type = FileType.file ∧ S.content ≠ none)) = true := by
        rw [decide_eq_true_eq]
        exact ⟨by rw [hMatch]; exact hOwner, hLid, hSty, by rw [hSc]; simp⟩
      have hSmem : S ∈ sb.filter (fun s =>
          decide (lookupLast (buildPathMap prev) (pathOf (rootItem :: sb) s.id)
            = some L.id ∧ L.id ≠ "" ∧ s.type = FileType.file ∧ s.content ≠ none)) :=
        List.mem_filter.mpr ⟨hS, hScond⟩
      rw [hnil] at hSmem
      cases hSmem
    · intro y hy
      have hy' := List.mem_filter.mp hy
      have hcond := hy'.2
      rw [decide_eq_true_eq] at hcond
      have hpath := (buildPathMap_val prev _ L.id hcond.1).2
      exact hUniq y hy'.1 hpath
  have hentry : updEntry (buildPathMap prev) (rootItem :: sb) sb L
      = { L with content := some c } := by
    unfold updEntry
    rw [hupdater]
    show (match S.content with
      | some c' => { L with content := some c' }
      | none => L) = { L with content := some c }
    rw [hSc]
  have hupdfind : (updatedPrev prev sb).find? (fun f => f.id == L.id)
      = some { L with content := some c } := by
    unfold updatedPrev updatedP
    rw [List.find?_map]
    have hpred : ((fun f : FileSystemItem => f.id == L.id) ∘
        updEntry (buildPathMap prev) (rootItem :: sb) sb)
        = (fun f : FileSystemItem => f.id == L.id) := by
      funext x
      simp [Function.comp, updEntry_id]
    rw [hpred, find?_id_nodup prev hn L hL]
    show some (updEntry (buildPathMap prev) (rootItem :: sb) sb L) = _
    rw [hentry]
  rw [List.find?_append, hupdfind]
  rfl

/-- Witness for `merge_keeps_local_id`: the spec's end-to-end scenario —
local file `/home/user/readme.md` with id `L1`, fresh node `R9` at the
same path with content `"new"`; after the merge the node is still found
under id `L1` with content `"new"`. -/
theorem merge_keeps_local_id_witness :
    (mergeWithSandboxFiles prevC1 sbC1).find? (fun f => f.id == itemL1.id)
      = some { itemL1 with content := some "new" } :=
  merge_keeps_local_id prevC1 sbC1 itemL1 itemR9 "new"
    (by decide) (by decide) (by decide) (by decide) (by decide) rfl rfl
    (by decide) (by decide)

/-- C6 counterexample: merging the same fresh set twice can change the
resulting contents.  The local node `n1` has a dangling `parentId` `z`;
the fresh set contains a folder with id `z`, so after the first merge
`n1`'s derived path changes from `/home/user/n.txt` to
`/home/user/d/n.txt`, and the second merge re-inserts the fresh file at
`/home/user/n.txt` — the (path, content) pair set of merge-twice strictly
exceeds that of merge-once. -/
theorem merge_not_idempotent :
    filePairs (mergeWithSandboxFiles prevC6 sbC6)
      = [(some "/home/user/d/n.txt", some "snew")] ∧
    filePairs (mergeWithSandboxFiles (mergeWithSandboxFiles prevC6 sbC6) sbC6)
      = [(some "/home/user/d/n.txt", some "snew"),
         (some "/home/user/n.txt", some "snew")] ∧
    (some "/home/user/n.txt", (some "snew" : Option String))
      ∉ filePairs (mergeWithSandboxFiles prevC6 sbC6) := by
  refine ⟨by decide, by decide, by decide⟩

/-! ### C6: idempotence of the merge under well-formedness -/

theorem foldl_fixed {α β : Type} (step : β → α → β) :
    ∀ (l : List α) (acc : β), (∀ s ∈ l, step acc s = acc) → l.foldl step acc = acc := by
  intro l
  induction l with
  | nil => intro acc _; rfl
  | cons s l' ih =>
    intro acc h
    rw [List.foldl_cons, h s (List.mem_cons_self s l')]
    exact ih acc (fun t ht => h t (List.mem_cons_of_mem s ht))

theorem content_set_self (f : FileSystemItem) (c : String) (h : f.content = some c) :
    ({ f with content := some c } : FileSystemItem) = f := by
  cases f
  simp at h
  simp [h]

theorem updAt_findIdx_self :
    ∀ (l : List FileSystemItem) (eid : String) (c : String),
      (∀ y ∈ l, y.id = eid → y.content = some c) →
      ∀ j, l.findIdx? (fun f => f.id == eid) = some j → updAt l j c = l := by
  intro l
  induction l with
  | nil => intro eid c _ j hj; cases hj
  | cons x rest ih =>
    intro eid c hall j hj
    rw [List.findIdx?_cons] at hj
    by_cases hx : x.id = eid
    · rw [if_pos (by simp [hx])] at hj
      injection hj with hj'
      subst hj'
      show ({ x with content := some c } : FileSystemItem) :: rest = x :: rest
      rw [content_set_self x c (hall x (List.mem_cons_self x rest) hx)]
    · rw [if_neg (by simp [hx]), List.findIdx?_succ] at hj
      rcases Option.map_eq_some'.mp hj with ⟨j', hj', hjj⟩
      subst hjj
      show x :: updAt rest j' c = x :: rest
      rw [ih eid c (fun y hy hid => hall y (List.mem_cons_of_mem x hy) hid) j' hj']

theorem updEntry_parentId (pm : List (Option String × String))
    (sbTree l : List FileSystemItem) (f : FileSystemItem) :
    (updEntry pm sbTree l f).parentId = f.parentId := by
  unfold updEntry
  cases updaterP pm sbTree l f.id with
  | none => rfl
  | some s =>
    show (match s.content with
      | some c => { f with content := some c }
      | none => f).parentId = f.parentId
    cases s.content with
    | none => rfl
    | some c => rfl

theorem updEntry_name (pm : List (Option String × String))
    (sbTree l : List FileSystemItem) (f : FileSystemItem) :
    (updEntry pm sbTree l f).name = f.name := by
  unfold updEntry
  cases updaterP pm sbTree l f.id with
  | none => rfl
  | some s =>
    show (match s.content with
      | some c => { f with content := some c }
      | none => f).name = f.name
    cases s.content with
    | none => rfl
    | some c => rfl

theorem lookupLast_none_keys (m : List (Option String × String)) (k : Option String)
    (h : lookupLast m k = none) : ∀ kv ∈ m, kv.1 ≠ k := by
  intro kv hkv
  unfold lookupLast at h
  have hfind : m.reverse.find? (fun kv => kv.1 == k) = none := by
    cases hf : m.reverse.find? (fun kv => kv.1 == k) with
    | none => rfl
    | some kv' => rw [hf] at h; cases h
  have := List.find?_eq_none.mp hfind kv (List.mem_reverse.mpr hkv)
  simpa using this

theorem lookupLast_eq_of_unique (m : List (Option String × String))
    (k : Option String) (v : String) (hmem : (k, v) ∈ m)
    (huniq : ∀ kv ∈ m, kv.1 = k → kv = (k, v)) : lookupLast m k = some v := by
  unfold lookupLast
  cases hf : m.reverse.find? (fun kv => kv.1 == k) with
  | none =>
    have := List.find?_eq_none.mp hf (k, v) (List.mem_reverse.mpr hmem)
    simp at this
  | some kv =>
    have hkvmem : kv ∈ m := List.mem_reverse.mp (List.mem_of_find?_eq_some hf)
    have hk : kv.1 = k := by
      have := List.find?_some hf
      simpa using this
    rw [huniq kv hkvmem hk]
    rfl

theorem lookupLast_append (m₁ m₂ : List (Option String × String)) (k : Option String) :
    lookupLast (m₁ ++ m₂) k = (lookupLast m₂ k).or (lookupLast m₁ k) := by
  unfold lookupLast
  rw [List.reverse_append, List.find?_append]
  cases m₂.reverse.find? (fun kv => kv.1 == k) with
  | none => rfl
  | some kv => rfl

theorem findItem_append (l₁ l₂ : List FileSystemItem) (fid : String) :
    findItem (l₁ ++ l₂) fid = (findItem l₁ fid).or (findItem l₂ fid) := by
  unfold findItem
  rw [List.find?_append]

theorem findItem_none_of_not_mem (l : List FileSystemItem) (fid : String)
    (h : fid ∉ l.map FileSystemItem.id) : findItem l fid = none := by
  unfold findItem
  apply List.find?_eq_none.mpr
  intro f hf
  simp only [beq_iff_eq]
  intro hid
  exact h (hid ▸ List.mem_map_of_mem _ hf)

theorem findItem_map_updEntry (pm : List (Option String × String))
    (sbTree l prev : List FileSystemItem) (fid : String) :
    findItem (prev.map (updEntry pm sbTree l)) fid
      = (findItem prev fid).map (updEntry pm sbTree l) := by
  unfold findItem
  have hpred : ((fun f : FileSystemItem => f.id == fid) ∘ updEntry pm sbTree l)
      = (fun f : FileSystemItem => f.id == fid) := by
    funext x
    simp [Function.comp, updEntry_id]
  rw [List.find?_map, hpred]

theorem findItem_of_nodup (l : List FileSystemItem)
    (hn : (l.map FileSystemItem.id).Nodup) (f : FileSystemItem) (hf : f ∈ l) :
    findItem l f.id = some f :=
  find?_id_nodup l hn f hf

theorem walkParents_none (files : List FileSystemItem) (fuel : Nat) (acc : List String) :
    walkParents files fuel none acc = some acc := by
  cases fuel <;> rfl

theorem walkParents_root (files : List FileSystemItem) (fuel : Nat) (pid : String)
    (h : pid = "root") (acc : List String) :
    walkParents files fuel (some pid) acc = some acc := by
  cases fuel <;> simp [walkParents, h]

theorem walkParents_notFound (files : List FileSystemItem) (fuel : Nat) (pid : String)
    (h : pid ≠ "root") (hf : findItem files pid = none) (acc : List String) :
    walkParents files fuel (some pid) acc = some acc := by
  cases fuel <;> simp [walkParents, h, hf]

theorem walkParents_found (files : List FileSystemItem) (n : Nat) (pid : String)
    (P : FileSystemItem) (h : pid ≠ "root") (hf : findItem files pid = some P)
    (acc : List String) :
    walkParents files (n + 1) (some pid) acc
      = walkParents files n P.parentId (P.name :: acc) := by
  simp [walkParents, h, hf]

theorem walk_agree_prev (prev : List FileSystemItem)
    (pm0 : List (Option String × String)) (sbTree0 lw A : List FileSystemItem)
    (hn : (prev.map FileSystemItem.id).Nodup)
    (hres : ∀ f ∈ prev, ∀ q ∈ f.parentId, q = "root" ∨ ∃ g ∈ prev, g.id = q)
    (d₁ : String → Nat)
    (hd₁ : ∀ f ∈ prev, ∀ q ∈ f.parentId, d₁ q < d₁ f.id) :
    ∀ (fuel₂ fuel₁ : Nat) (pid : String) (acc : List String),
      (pid = "root" ∨ ∃ P ∈ prev, P.id = pid) →
      d₁ pid < fuel₁ → d₁ pid < fuel₂ →
      walkParents (prev.map (updEntry pm0 sbTree0 lw) ++ A) fuel₁ (some pid) acc
        = walkParents prev fuel₂ (some pid) acc := by
  intro fuel₂
  induction fuel₂ with
  | zero => intro fuel₁ pid acc _ _ h2; exact absurd h2 (by omega)
  | succ n₂ ih =>
    intro fuel₁ pid acc hinv h1 h2
    rcases hinv with hr | ⟨P, hP, hPid⟩
    · rw [walkParents_root _ _ _ hr, walkParents_root _ _ _ hr]
    · by_cases hr : pid = "root"
      · rw [walkParents_root _ _ _ hr, walkParents_root _ _ _ hr]
      · have hfindprev : findItem prev pid = some P := by
          rw [← hPid]
          exact findItem_of_nodup prev hn P hP
        have hfindM : findItem (prev.map (updEntry pm0 sbTree0 lw) ++ A) pid
            = some (updEntry pm0 sbTree0 lw P) := by
          rw [findItem_append, findItem_map_updEntry, hfindprev]
          rfl
        cases fuel₁ with
        | zero => exact absurd h1 (by omega)
        | succ n₁ =>
          rw [walkParents_found _ n₁ pid _ hr hfindM acc,
            walkParents_found _ n₂ pid P hr hfindprev acc,
            updEntry_parentId, updEntry_name]
          cases hpq : P.parentId with
          | none => rw [walkParents_none, walkParents_none]
          | some q =>
            have hq_mem : q ∈ P.parentId := by rw [hpq]; rfl
            have hdq : d₁ q < d₁ pid := hPid ▸ hd₁ P hP q hq_mem
            exact ih n₁ q (P.name :: acc) (hres P hP q hq_mem)
              (by omega) (by omega)

theorem pathOf_stable (prev : List FileSystemItem)
    (pm0 : List (Option String × String)) (sbTree0 lw A : List FileSystemItem)
    (hn : (prev.map FileSystemItem.id).Nodup)
    (hres : ∀ f ∈ prev, ∀ q ∈ f.parentId, q = "root" ∨ ∃ g ∈ prev, g.id = q)
    (d₁ : String → Nat)
    (hd₁ : ∀ f ∈ prev, ∀ q ∈ f.parentId, d₁ q < d₁ f.id)
    (hb₁ : ∀ f ∈ prev, d₁ f.id < prev.length) :
    ∀ g ∈ prev,
      pathOf (prev.map (updEntry pm0 sbTree0 lw) ++ A) g.id = pathOf prev g.id := by
  intro g hg
  have hfindprev : findItem prev g.id = some g := findItem_of_nodup prev hn g hg
  have hfindM : findItem (prev.map (updEntry pm0 sbTree0 lw) ++ A) g.id
      = some (updEntry pm0 sbTree0 lw g) := by
    rw [findItem_append, findItem_map_updEntry, hfindprev]
    rfl
  unfold pathOf
  rw [hfindprev, hfindM]
  show (walkParents (prev.map (updEntry pm0 sbTree0 lw) ++ A)
      (prev.map (updEntry pm0 sbTree0 lw) ++ A).length
      (updEntry pm0 sbTree0 lw g).parentId
      [(updEntry pm0 sbTree0 lw g).name]).map
      (fun parts => "/home/user/" ++ String.intercalate "/" parts)
    = (walkParents prev prev.length g.parentId [g.name]).map
      (fun parts => "/home/user/" ++ String.intercalate "/" parts)
  rw [updEntry_parentId, updEntry_name]
  cases hpq : g.parentId with
  | none => rw [walkParents_none, walkParents_none]
  | some q =>
    have hq_mem : q ∈ g.parentId := by rw [hpq]; rfl
    have hdq : d₁ q < d₁ g.id := hd₁ g hg q hq_mem
    have hdb : d₁ g.id < prev.length := hb₁ g hg
    have hlen : prev.length ≤ (prev.map (updEntry pm0 sbTree0 lw) ++ A).length := by
      rw [List.length_append, List.length_map]
      omega
    rw [walk_agree_prev prev pm0 sbTree0 lw A hn hres d₁ hd₁ prev.length
      ((prev.map (updEntry pm0 sbTree0 lw) ++ A).length) q [g.name]
      (hres g hg q hq_mem) (by omega) (by omega)]

theorem walk_agree_sb (prev sb : List FileSystemItem)
    (pm0 : List (Option String × String)) (sbTree0 lw : List FileSystemItem)
    (h4 : (sb.map FileSystemItem.id).Nodup)
    (h5 : ∀ s ∈ sb, s.id ∉ prev.map FileSystemItem.id)
    (h8 : ∀ s ∈ sb, ∀ q ∈ s.parentId, q = "root" ∨ ∃ P ∈ sb, P.id = q)
    (h9 : ∀ s ∈ sb,
      lookupLast (buildPathMap prev) (pathOf (rootItem :: sb) s.id) = none →
      ∀ q ∈ s.parentId, q ≠ "root" → ∀ P ∈ sb, P.id = q →
        lookupLast (buildPathMap prev) (pathOf (rootItem :: sb) P.id) = none)
    (h10 : ∀ s ∈ sb, s.id ≠ "root")
    (d₂ : String → Nat)
    (hd₂ : ∀ s ∈ sb, ∀ q ∈ s.parentId, d₂ q < d₂ s.id)
    (hAn : ((appendedFiles prev sb).map FileSystemItem.id).Nodup) :
    ∀ (fuel₂ fuel₁ : Nat) (pid : String) (acc : List String),
      (pid = "root" ∨ ∃ P ∈ sb, P.id = pid ∧
        lookupLast (buildPathMap prev) (pathOf (rootItem :: sb) P.id) = none) →
      d₂ pid < fuel₁ → d₂ pid < fuel₂ →
      walkParents (prev.map (updEntry pm0 sbTree0 lw) ++ appendedFiles prev sb)
          fuel₁ (some pid) acc
        = walkParents (rootItem :: sb) fuel₂ (some pid) acc := by
  intro fuel₂
  induction fuel₂ with
  | zero => intro fuel₁ pid acc _ _ h2; exact absurd h2 (by omega)
  | succ n₂ ih =>
    intro fuel₁ pid acc hinv h1 h2
    rcases hinv with hr | ⟨P, hP, hPid, hPapp⟩
    · rw [walkParents_root _ _ _ hr, walkParents_root _ _ _ hr]
    · have hr : pid ≠ "root" := hPid ▸ h10 P hP
      have hPinA : P ∈ appendedFiles prev sb := by
        unfold appendedFiles appendedP
        exact List.mem_filter.mpr ⟨hP, by simpa using hPapp⟩
      have hfindA : findItem (appendedFiles prev sb) pid = some P := by
        rw [← hPid]
        exact findItem_of_nodup _ hAn P hPinA
      have hfindU : findItem (prev.map (updEntry pm0 sbTree0 lw)) pid = none := by
        rw [findItem_map_updEntry]
        rw [findItem_none_of_not_mem prev pid (hPid ▸ h5 P hP)]
        rfl
      have hfindM : findItem (prev.map (updEntry pm0 sbTree0 lw) ++ appendedFiles prev sb)
          pid = some P := by
        rw [findItem_append, hfindU, hfindA]
        rfl
      have hfindsb : findItem (rootItem :: sb) pid = some P := by
        unfold findItem
        rw [List.find?_cons, show ((rootItem.id == pid) = false) by
          simp [rootItem]
          exact fun hcontra => hr hcontra.symm]
        rw [← hPid]
        exact findItem_of_nodup sb h4 P hP
      cases fuel₁ with
      | zero => exact absurd h1 (by omega)
      | succ n₁ =>
        rw [walkParents_found _ n₁ pid P hr hfindM acc,
          walkParents_found _ n₂ pid P hr hfindsb acc]
        cases hpq : P.parentId with
        | none => rw [walkParents_none, walkParents_none]
        | some q =>
          have hq_mem : q ∈ P.parentId := by rw [hpq]; rfl
          have hdq : d₂ q < d₂ pid := hPid ▸ hd₂ P hP q hq_mem
          apply ih n₁ q (P.name :: acc) ?_ (by omega) (by omega)
          rcases h8 P hP q hq_mem with hqr | ⟨Q, hQ, hQid⟩
          · exact Or.inl hqr
          · by_cases hqroot : q = "root"
            · exact Or.inl hqroot
            · exact Or.inr ⟨Q, hQ, hQid,
                h9 P hP hPapp q hq_mem hqroot Q hQ hQid⟩

theorem pathOf_transfer (prev sb : List FileSystemItem)
    (pm0 : List (Option String × String)) (sbTree0 lw : List FileSystemItem)
    (h4 : (sb.map FileSystemItem.id).Nodup)
    (h5 : ∀ s ∈ sb, s.id ∉ prev.map FileSystemItem.id)
    (h8 : ∀ s ∈ sb, ∀ q ∈ s.parentId, q = "root" ∨ ∃ P ∈ sb, P.id = q)
    (h9 : ∀ s ∈ sb,
      lookupLast (buildPathMap prev) (pathOf (rootItem :: sb) s.id) = none →
      ∀ q ∈ s.parentId, q ≠ "root" → ∀ P ∈ sb, P.id = q →
        lookupLast (buildPathMap prev) (pathOf (rootItem :: sb) P.id) = none)
    (h10 : ∀ s ∈ sb, s.id ≠ "root")
    (d₂ : String → Nat)
    (hd₂ : ∀ s ∈ sb, ∀ q ∈ s.parentId, d₂ q < d₂ s.id)
    (hb₂ : ∀ s ∈ sb, d₂ s.id < sb.length)
    (hAn : ((appendedFiles prev sb).map FileSystemItem.id).Nodup)
    (hlenM : sb.length ≤
      (prev.map (updEntry pm0 sbTree0 lw) ++ appendedFiles prev sb).length) :
    ∀ a ∈ sb,
      lookupLast (buildPathMap prev) (pathOf (rootItem :: sb) a.id) = none →
      pathOf (prev.map (updEntry pm0 sbTree0 lw) ++ appendedFiles prev sb) a.id
        = pathOf (rootItem :: sb) a.id := by
  intro a ha happ
  have hainA : a ∈ appendedFiles prev sb := by
    unfold appendedFiles appendedP
    exact List.mem_filter.mpr ⟨ha, by simpa using happ⟩
  have hfindA : findItem (appendedFiles prev sb) a.id = some a :=
    findItem_of_nodup _ hAn a hainA
  have hfindU : findItem (prev.map (updEntry pm0 sbTree0 lw)) a.id = none := by
    rw [findItem_map_updEntry, findItem_none_of_not_mem prev a.id (h5 a ha)]
    rfl
  have hfindM : findItem (prev.map (updEntry pm0 sbTree0 lw) ++ appendedFiles prev sb)
      a.id = some a := by
    rw [findItem_append, hfindU, hfindA]
    rfl
  have hfindsb : findItem (rootItem :: sb) a.id = some a := by
    unfold findItem
    rw [List.find?_cons, show ((rootItem.id == a.id) = false) by
      simp [rootItem]
      exact fun hcontra => h10 a ha hcontra.symm]
    exact findItem_of_nodup sb h4 a ha
  unfold pathOf
  rw [hfindM, hfindsb]
  show (walkParents (prev.map (updEntry pm0 sbTree0 lw) ++ appendedFiles prev sb)
      (prev.map (updEntry pm0 sbTree0 lw) ++ appendedFiles prev sb).length
      a.parentId [a.name]).map
      (fun parts => "/home/user/" ++ String.intercalate "/" parts)
    = (walkParents (rootItem :: sb) (rootItem :: sb).length a.parentId [a.name]).map
      (fun parts => "/home/user/" ++ String.intercalate "/" parts)
  cases hpq : a.parentId with
  | none => rw [walkParents_none, walkParents_none]
  | some q =>
    have hq_mem : q ∈ a.parentId := by rw [hpq]; rfl
    have hdq : d₂ q < d₂ a.id := hd₂ a ha q hq_mem
    have hdb : d₂ a.id < sb.length := hb₂ a ha
    have hinv : q = "root" ∨ ∃ P ∈ sb, P.id = q ∧
        lookupLast (buildPathMap prev) (pathOf (rootItem :: sb) P.id) = none := by
      rcases h8 a ha q hq_mem with hqr | ⟨Q, hQ, hQid⟩
      · exact Or.inl hqr
      · by_cases hqroot : q = "root"
        · exact Or.inl hqroot
        · exact Or.inr ⟨Q, hQ, hQid, h9 a ha happ q hq_mem hqroot Q hQ hQid⟩
    rw [walk_agree_sb prev sb pm0 sbTree0 lw h4 h5 h8 h9 h10 d₂ hd₂ hAn
      (rootItem :: sb).length
      ((prev.map (updEntry pm0 sbTree0 lw) ++ appendedFiles prev sb).length)
      q [a.name] hinv (by omega) (by simp only [List.length_cons]; omega)]

theorem sb_length_le_merged (prev sb : List FileSystemItem)
    (h6 : (sb.map (fun s => pathOf (rootItem :: sb) s.id)).Nodup) :
    sb.length ≤ prev.length + (appendedFiles prev sb).length := by
  have hsplit := (List.length_eq_length_filter_add
    (fun s => decide (lookupLast (buildPathMap prev)
      (pathOf (rootItem :: sb) s.id) = none)) (l := sb))
  have hnonA : (sb.filter (fun s => !(decide (lookupLast (buildPathMap prev)
      (pathOf (rootItem :: sb) s.id) = none)))).length ≤ prev.length := by
    set pf : FileSystemItem → Option String :=
      fun s => pathOf (rootItem :: sb) s.id with hpf
    set nonA := sb.filter (fun s => !(decide (lookupLast (buildPathMap prev)
      (pf s) = none))) with hnonAdef
    have hmapped : (nonA.map pf).Nodup := by
      have hsub : List.Sublist (nonA.map pf) (sb.map pf) :=
        List.Sublist.map pf (List.filter_sublist sb)
      exact List.Nodup.sublist hsub h6
    have hsubkeys : nonA.map pf ⊆ (buildPathMap prev).map Prod.fst := by
      intro x hx
      rcases List.mem_map.mp hx with ⟨t, ht, hpt⟩
      have hcond := (List.mem_filter.mp ht).2
      simp only [Bool.not_eq_true', decide_eq_false_iff_not] at hcond
      cases hlt : lookupLast (buildPathMap prev) (pf t) with
      | none => exact absurd hlt hcond
      | some v =>
        have hmem := lookupLast_mem _ _ _ hlt
        rw [← hpt]
        exact List.mem_map.mpr ⟨(pf t, v), hmem, rfl⟩
    have hle := List.Subperm.length_le (List.subperm_of_subset hmapped hsubkeys)
    rw [List.length_map, List.length_map] at hle
    unfold buildPathMap at hle
    rw [List.length_map] at hle
    exact hle
  have hA : (appendedFiles prev sb).length
      = (sb.filter (fun s => decide (lookupLast (buildPathMap prev)
        (pathOf (rootItem :: sb) s.id) = none))).length := rfl
  omega

theorem lookupLast_eq_none_of_keys (m : List (Option String × String))
    (k : Option String) (h : ∀ kv ∈ m, kv.1 ≠ k) : lookupLast m k = none := by
  unfold lookupLast
  have hfind : m.reverse.find? (fun kv => kv.1 == k) = none := by
    apply List.find?_eq_none.mpr
    intro kv hkv
    simpa using h kv (List.mem_reverse.mp hkv)
  rw [hfind]
  rfl

theorem mergedPathMap (prev sb : List FileSystemItem) (d₁ d₂ : String → Nat)
    (h1 : (prev.map FileSystemItem.id).Nodup)
    (h2 : ∀ f ∈ prev, ∀ q ∈ f.parentId, q = "root" ∨ ∃ g ∈ prev, g.id = q)
    (h3a : ∀ f ∈ prev, ∀ q ∈ f.parentId, d₁ q < d₁ f.id)
    (h3b : ∀ f ∈ prev, d₁ f.id < prev.length)
    (h4 : (sb.map FileSystemItem.id).Nodup)
    (h5 : ∀ s ∈ sb, s.id ∉ prev.map FileSystemItem.id)
    (h6 : (sb.map (fun s => pathOf (rootItem :: sb) s.id)).Nodup)
    (h7a : ∀ s ∈ sb, ∀ q ∈ s.parentId, d₂ q < d₂ s.id)
    (h7b : ∀ s ∈ sb, d₂ s.id < sb.length)
    (h8 : ∀ s ∈ sb, ∀ q ∈ s.parentId, q = "root" ∨ ∃ P ∈ sb, P.id = q)
    (h9 : ∀ s ∈ sb,
      lookupLast (buildPathMap prev) (pathOf (rootItem :: sb) s.id) = none →
      ∀ q ∈ s.parentId, q ≠ "root" → ∀ P ∈ sb, P.id = q →
        lookupLast (buildPathMap prev) (pathOf (rootItem :: sb) P.id) = none)
    (h10 : ∀ s ∈ sb, s.id ≠ "root") :
    buildPathMap (prev.map (updEntry (buildPathMap prev) (rootItem :: sb) sb)
        ++ appendedFiles prev sb)
      = buildPathMap prev
        ++ (appendedFiles prev sb).map
            (fun a => (pathOf (rootItem :: sb) a.id, a.id)) := by
  have hAn : ((appendedFiles prev sb).map FileSystemItem.id).Nodup := by
    have hsub : List.Sublist ((appendedFiles prev sb).map FileSystemItem.id)
        (sb.map FileSystemItem.id) :=
      List.Sublist.map FileSystemItem.id (List.filter_sublist sb)
    exact List.Nodup.sublist hsub h4
  have hstable := pathOf_stable prev (buildPathMap prev) (rootItem :: sb) sb
    (appendedFiles prev sb) h1 h2 d₁ h3a h3b
  have hlenM : sb.length ≤ (prev.map (updEntry (buildPathMap prev) (rootItem :: sb) sb)
      ++ appendedFiles prev sb).length := by
    have := sb_length_le_merged prev sb h6
    rw [List.length_append, List.length_map]
    omega
  have htransfer := pathOf_transfer prev sb (buildPathMap prev) (rootItem :: sb) sb
    h4 h5 h8 h9 h10 d₂ h7a h7b hAn hlenM
  show (prev.map (updEntry (buildPathMap prev) (rootItem :: sb) sb)
      ++ appendedFiles prev sb).map
      (fun f => (pathOf (prev.map (updEntry (buildPathMap prev) (rootItem :: sb) sb)
        ++ appendedFiles prev sb) f.id, f.id))
    = buildPathMap prev
      ++ (appendedFiles prev sb).map
          (fun a => (pathOf (rootItem :: sb) a.id, a.id))
  rw [List.map_append, List.map_map]
  congr 1
  · show prev.map ((fun f => (pathOf (prev.map (updEntry (buildPathMap prev)
        (rootItem :: sb) sb) ++ appendedFiles prev sb) f.id, f.id))
        ∘ (updEntry (buildPathMap prev) (rootItem :: sb) sb))
      = prev.map (fun f => (pathOf prev f.id, f.id))
    apply List.map_congr_left
    intro g hg
    show (pathOf (prev.map (updEntry (buildPathMap prev) (rootItem :: sb) sb)
        ++ appendedFiles prev sb) (updEntry (buildPathMap prev) (rootItem :: sb) sb g).id,
      (updEntry (buildPathMap prev) (rootItem :: sb) sb g).id)
      = (pathOf prev g.id, g.id)
    rw [updEntry_id, hstable g hg]
  · apply List.map_congr_left
    intro a ha
    have ha' := List.mem_filter.mp ha
    have happ : lookupLast (buildPathMap prev) (pathOf (rootItem :: sb) a.id) = none := by
      simpa using ha'.2
    show (pathOf (prev.map (updEntry (buildPathMap prev) (rootItem :: sb) sb)
        ++ appendedFiles prev sb) a.id, a.id)
      = (pathOf (rootItem :: sb) a.id, a.id)
    rw [htransfer a ha'.1 happ]

theorem mergeStep_idem (prev sb : List FileSystemItem) (d₁ d₂ : String → Nat)
    (h1 : (prev.map FileSystemItem.id).Nodup)
    (h2 : ∀ f ∈ prev, ∀ q ∈ f.parentId, q = "root" ∨ ∃ g ∈ prev, g.id = q)
    (h3a : ∀ f ∈ prev, ∀ q ∈ f.parentId, d₁ q < d₁ f.id)
    (h3b : ∀ f ∈ prev, d₁ f.id < prev.length)
    (h4 : (sb.map FileSystemItem.id).Nodup)
    (h5 : ∀ s ∈ sb, s.id ∉ prev.map FileSystemItem.id)
    (h6 : (sb.map (fun s => pathOf (rootItem :: sb) s.id)).Nodup)
    (h7a : ∀ s ∈ sb, ∀ q ∈ s.parentId, d₂ q < d₂ s.id)
    (h7b : ∀ s ∈ sb, d₂ s.id < sb.length)
    (h8 : ∀ s ∈ sb, ∀ q ∈ s.parentId, q = "root" ∨ ∃ P ∈ sb, P.id = q)
    (h9 : ∀ s ∈ sb,
      lookupLast (buildPathMap prev) (pathOf (rootItem :: sb) s.id) = none →
      ∀ q ∈ s.parentId, q ≠ "root" → ∀ P ∈ sb, P.id = q →
        lookupLast (buildPathMap prev) (pathOf (rootItem :: sb) P.id) = none)
    (h10 : ∀ s ∈ sb, s.id ≠ "root")
    (s : FileSystemItem) (hs : s ∈ sb) :
    mergeStep (buildPathMap (prev.map (updEntry (buildPathMap prev) (rootItem :: sb) sb)
        ++ appendedFiles prev sb)) (rootItem :: sb)
      (prev.map (updEntry (buildPathMap prev) (rootItem :: sb) sb)
        ++ appendedFiles prev sb) s
      = prev.map (updEntry (buildPathMap prev) (rootItem :: sb) sb)
        ++ appendedFiles prev sb := by
  have hpm2 := mergedPathMap prev sb d₁ d₂ h1 h2 h3a h3b h4 h5 h6 h7a h7b h8 h9 h10
  set M := prev.map (updEntry (buildPathMap prev) (rootItem :: sb) sb)
    ++ appendedFiles prev sb with hM
  cases happ : lookupLast (buildPathMap prev) (pathOf (rootItem :: sb) s.id) with
  | none =>
    have hsinA : s ∈ appendedFiles prev sb := by
      unfold appendedFiles appendedP
      exact List.mem_filter.mpr ⟨hs, by simpa using happ⟩
    have hlk2 : lookupLast (buildPathMap M) (pathOf (rootItem :: sb) s.id)
        = some s.id := by
      rw [hpm2, lookupLast_append]
      have hA : lookupLast ((appendedFiles prev sb).map
          (fun a => (pathOf (rootItem :: sb) a.id, a.id)))
          (pathOf (rootItem :: sb) s.id) = some s.id := by
        apply lookupLast_eq_of_unique
        · exact List.mem_map.mpr ⟨s, hsinA, rfl⟩
        · intro kv hkv hk
          rcases List.mem_map.mp hkv with ⟨a, ha, hae⟩
          have ha' : a ∈ sb := List.mem_of_mem_filter ha
          have hpatheq : pathOf (rootItem :: sb) a.id
              = pathOf (rootItem :: sb) s.id := by
            rw [← hk, ← hae]
          have has : a = s := List.inj_on_of_nodup_map h6 ha' hs hpatheq
          rw [← hae, has]
      rw [hA]
      rfl
    rw [mergeStep_some _ _ _ _ s.id hlk2]
    by_cases hok : s.id ≠ "" ∧ s.type = FileType.file
    · rw [if_pos hok]
      cases hc : s.content with
      | none =>
        cases M.findIdx? (fun f => f.id == s.id) with
        | none => rfl
        | some idx => rfl
      | some c =>
        cases hidx : M.findIdx? (fun f => f.id == s.id) with
        | none => rfl
        | some j =>
          show updAt M j c = M
          apply updAt_findIdx_self M s.id c ?_ j hidx
          intro y hy hyid
          rcases List.mem_append.mp hy with hyU | hyA
          · exfalso
            rcases List.mem_map.mp hyU with ⟨g, hg, hge⟩
            apply h5 s hs
            have hgid : g.id = s.id := by
              rw [← hyid, ← hge, updEntry_id]
            rw [← hgid]
            exact List.mem_map_of_mem _ hg
          · have hyinsb : y ∈ sb := List.mem_of_mem_filter hyA
            have hys : y = s := List.inj_on_of_nodup_map h4 hyinsb hs hyid
            rw [hys, hc]
    · rw [if_neg hok]
  | some eid =>
    have hlk2 : lookupLast (buildPathMap M) (pathOf (rootItem :: sb) s.id)
        = some eid := by
      rw [hpm2, lookupLast_append]
      have hA : lookupLast ((appendedFiles prev sb).map
          (fun a => (pathOf (rootItem :: sb) a.id, a.id)))
          (pathOf (rootItem :: sb) s.id) = none := by
        apply lookupLast_eq_none_of_keys
        intro kv hkv
        rcases List.mem_map.mp hkv with ⟨a, ha, hae⟩
        have ha' : a ∈ sb := List.mem_of_mem_filter ha
        intro hk
        have hpatheq : pathOf (rootItem :: sb) a.id
            = pathOf (rootItem :: sb) s.id := by
          rw [← hk, ← hae]
        have has : a = s := List.inj_on_of_nodup_map h6 ha' hs hpatheq
        have hsapp : lookupLast (buildPathMap prev)
            (pathOf (rootItem :: sb) a.id) = none := by
          have := (List.mem_filter.mp ha).2
          simpa using this
        rw [has, happ] at hsapp
        cases hsapp
      rw [hA, Option.none_or, happ]
    rw [mergeStep_some _ _ _ _ eid hlk2]
    by_cases hok : eid ≠ "" ∧ s.type = FileType.file
    · rw [if_pos hok]
      cases hc : s.content with
      | none =>
        cases M.findIdx? (fun f => f.id == eid) with
        | none => rfl
        | some idx => rfl
      | some c =>
        cases hidx : M.findIdx? (fun f => f.id == eid) with
        | none => rfl
        | some j =>
          show updAt M j c = M
          apply updAt_findIdx_self M eid c ?_ j hidx
          intro y hy hyid
          have hps_eq : pathOf (rootItem :: sb) s.id = pathOf prev eid :=
            (buildPathMap_val prev _ eid happ).2
          rcases List.mem_append.mp hy with hyU | hyA
          · rcases List.mem_map.mp hyU with ⟨g, hg, hge⟩
            have hgid : g.id = eid := by
              rw [← hyid, ← hge, updEntry_id]
            have hupdater : updaterP (buildPathMap prev) (rootItem :: sb) sb g.id
                = some s := by
              unfold updaterP
              apply getLast?_all_eq
              · intro hnil
                have hScond : (decide (lookupLast (buildPathMap prev)
                    (pathOf (rootItem :: sb) s.id) = some g.id ∧ g.id ≠ "" ∧
                    s.type = FileType.file ∧ s.content ≠ none)) = true := by
                  rw [decide_eq_true_eq]
                  exact ⟨by rw [hgid]; exact happ, by rw [hgid]; exact hok.1,
                    hok.2, by rw [hc]; simp⟩
                have hsmem : s ∈ sb.filter (fun t =>
                    decide (lookupLast (buildPathMap prev)
                      (pathOf (rootItem :: sb) t.id) = some g.id ∧ g.id ≠ "" ∧
                      t.type = FileType.file ∧ t.content ≠ none)) :=
                  List.mem_filter.mpr ⟨hs, hScond⟩
                rw [hnil] at hsmem
                cases hsmem
              · intro t ht
                have ht' := List.mem_filter.mp ht
                have hcond := ht'.2
                rw [decide_eq_true_eq] at hcond
                have hpt : pathOf (rootItem :: sb) t.id = pathOf prev g.id :=
                  (buildPathMap_val prev _ g.id hcond.1).2
                have hpteq : pathOf (rootItem :: sb) t.id
                    = pathOf (rootItem :: sb) s.id := by
                  rw [hpt, hgid, ← hps_eq]
                exact List.inj_on_of_nodup_map h6 ht'.1 hs hpteq
            have hyc : y.content = some c := by
              rw [← hge]
              unfold updEntry
              rw [hupdater]
              show (match s.content with
                | some c' => { g with content := some c' }
                | none => g).content = some c
              rw [hc]
            exact hyc
          · exfalso
            have hyinsb : y ∈ sb := List.mem_of_mem_filter hyA
            have heid_prev : eid ∈ prev.map FileSystemItem.id :=
              (buildPathMap_val prev _ eid happ).1
            exact h5 y hyinsb (by rw [hyid]; exact heid_prev)
    · rw [if_neg hok]

/-- C6 amended: the merge is idempotent on well-formed inputs — local parent
pointers that resolve locally (with a bounded decreasing depth measure,
provided by the no-cycles invariant), duplicate-free local ids, fresh nodes
with fresh non-root ids, a well-formed acyclic fresh forest with distinct
derived paths, and fresh subtrees inserted whole (the parent of every
newly-pathed fresh node is also newly pathed) — in fact the second merge
leaves the tree literally unchanged.  Without these conditions idempotence
fails, see the counterexample. -/
theorem merge_idempotent (prev sb : List FileSystemItem) (d₁ d₂ : String → Nat)
    (h1 : (prev.map FileSystemItem.id).Nodup)
    (h2 : ∀ f ∈ prev, ∀ q ∈ f.parentId, q = "root" ∨ ∃ g ∈ prev, g.id = q)
    (h3a : ∀ f ∈ prev, ∀ q ∈ f.parentId, d₁ q < d₁ f.id)
    (h3b : ∀ f ∈ prev, d₁ f.id < prev.length)
    (h4 : (sb.map FileSystemItem.id).Nodup)
    (h5 : ∀ s ∈ sb, s.id ∉ prev.map FileSystemItem.id)
    (h6 : (sb.map (fun s => pathOf (rootItem :: sb) s.id)).Nodup)
    (h7a : ∀ s ∈ sb, ∀ q ∈ s.parentId, d₂ q < d₂ s.id)
    (h7b : ∀ s ∈ sb, d₂ s.id < sb.length)
    (h8 : ∀ s ∈ sb, ∀ q ∈ s.parentId, q = "root" ∨ ∃ P ∈ sb, P.id = q)
    (h9 : ∀ s ∈ sb,
      lookupLast (buildPathMap prev) (pathOf (rootItem :: sb) s.id) = none →
      ∀ q ∈ s.parentId, q ≠ "root" → ∀ P ∈ sb, P.id = q →
        lookupLast (buildPathMap prev) (pathOf (rootItem :: sb) P.id) = none)
    (h10 : ∀ s ∈ sb, s.id ≠ "root") :
    mergeWithSandboxFiles (mergeWithSandboxFiles prev sb) sb
      = mergeWithSandboxFiles prev sb := by
  have hchar : mergeWithSandboxFiles prev sb
      = prev.map (updEntry (buildPathMap prev) (rootItem :: sb) sb)
        ++ appendedFiles prev sb := merge_char prev sb h1
  rw [hchar]
  show sb.foldl (mergeStep (buildPathMap
      (prev.map (updEntry (buildPathMap prev) (rootItem :: sb) sb)
        ++ appendedFiles prev sb)) (rootItem :: sb))
    (prev.map (updEntry (buildPathMap prev) (rootItem :: sb) sb)
      ++ appendedFiles prev sb)
    = prev.map (updEntry (buildPathMap prev) (rootItem :: sb) sb)
      ++ appendedFiles prev sb
  apply foldl_fixed
  intro s hs
  exact mergeStep_idem prev sb d₁ d₂ h1 h2 h3a h3b h4 h5 h6 h7a h7b h8 h9 h10 s hs

/-- The idempotence theorem at a concrete well-formed instance: a local
root-plus-readme tree merged with one overwrite and one genuinely fresh
file; merging the fresh set a second time changes nothing. -/
theorem merge_idempotent_witness :
    mergeWithSandboxFiles (mergeWithSandboxFiles prevC6w sbC6w) sbC6w
      = mergeWithSandboxFiles prevC6w sbC6w :=
  merge_idempotent prevC6w sbC6w depthC6w depthC6w
    (by decide) (by decide) (by decide) (by decide) (by decide) (by decide)
    (by decide) (by decide) (by decide) (by decide) (by decide) (by decide)

end Sendbox
